import Mathlib

/-!
Verification of the response-normalization pipeline of Recipe Studio
(`app.py`): the text sanitizer, structural coercion, JSON extraction and
repair, the heuristic prose extractor, the record finalizer and the
session title registry are modelled as executable Lean functions over
`List Char` / `String`, and the spec claims are settled against them.

Modelling conventions:
* Python strings are `String` (processed as `List Char`); the ASCII
  fragments of `str.strip`, `str.lower`, `str.title`, regex `\s`, `\w`
  and `\b` are modelled (the repository only manipulates ASCII-oriented
  text plus a few fixed literal glyphs).
* regex substitutions are modelled by explicit left-to-right scans that
  follow the Python `re` semantics (leftmost match, greedy/non-greedy
  as in the concrete pattern, continuation after the match end).
* Python values are an inductive `PyVal`; a raised exception is an
  `Option.none` at the point where the source can raise.
-/

set_option maxRecDepth 8000

/-- ASCII fragment of Python whitespace: matches `str.strip()` and the
regex class `\s` on the character set this program manipulates. -/
def isPySpace (c : Char) : Bool :=
  c == ' ' || c == '\t' || c == '\n' || c == '\r' || c == '\x0b' || c == '\x0c'

/-- Regex word character `\w` (ASCII): letters, digits, underscore. -/
def isWordChar (c : Char) : Bool :=
  c.isAlphanum || c == '_'

/-- `str.strip()` on a character list (ASCII whitespace). -/
def pstripL (l : List Char) : List Char :=
  ((l.dropWhile isPySpace).reverse.dropWhile isPySpace).reverse

/-- `str.strip()` on a string. -/
def pyStrip (s : String) : String := String.mk (pstripL s.data)

/-- `str.lower()` (ASCII). -/
def pyLower (s : String) : String := String.mk (s.data.map Char.toLower)

/-- `str.title()` (ASCII): a cased character is uppercased when the
preceding character is not cased, lowercased otherwise. -/
def pyTitleGo : Bool → List Char → List Char
  | _, [] => []
  | prevCased, c :: cs =>
    (if c.isAlpha then (if prevCased then c.toLower else c.toUpper) else c)
      :: pyTitleGo c.isAlpha cs

/-- `str.title()` on a string. -/
def pyTitle (s : String) : String := String.mk (pyTitleGo false s.data)

/-- `str.capitalize()` (ASCII): first character uppercased, rest lowercased. -/
def pyCapitalize (s : String) : String :=
  match s.data with
  | [] => ""
  | c :: cs => String.mk (c.toUpper :: cs.map Char.toLower)

/-- `str.strip(chars)`: strip the given character set from both ends. -/
def pstripSet (bad : List Char) (l : List Char) : List Char :=
  ((l.dropWhile (bad.contains ·)).reverse.dropWhile (bad.contains ·)).reverse

/-- `str.splitlines()` (ASCII line boundaries `\n`, `\r`, `\r\n`, `\v`, `\f`). -/
def isLineBreak (c : Char) : Bool :=
  c == '\n' || c == '\r' || c == '\x0b' || c == '\x0c'

def splitlinesGo (cur : List Char) : List Char → List (List Char)
  | [] => if cur = [] then [] else [cur.reverse]
  | '\r' :: '\n' :: rest => cur.reverse :: splitlinesGo [] rest
  | c :: rest =>
    if isLineBreak c then cur.reverse :: splitlinesGo [] rest
    else splitlinesGo (c :: cur) rest

/-- `str.splitlines()` on a character list. -/
def pySplitlines (l : List Char) : List (List Char) := splitlinesGo [] l

/-- `str.split(sep)` for a one-character separator: always returns at
least one piece, empty pieces included (Python semantics). -/
def splitCharGo (sep : Char) (cur : List Char) : List Char → List (List Char)
  | [] => [cur.reverse]
  | c :: rest =>
    if c == sep then cur.reverse :: splitCharGo sep [] rest
    else splitCharGo sep (c :: cur) rest

def splitChar (sep : Char) (l : List Char) : List (List Char) := splitCharGo sep [] l

/-! ## Text Sanitizer (`_clean_text`, source lines 169-176)

`_JSON_SIGNS = re.compile(r"[{}\[\]`]|\"")` followed by label removal,
one leading list-marker removal, whitespace collapse and comma spacing. -/

/-- Characters matched by `_JSON_SIGNS` (source line 38). -/
def jsonSignChar (c : Char) : Bool :=
  c == '{' || c == '}' || c == '[' || c == ']' || c == '`' || c == '"'

/-- `_JSON_SIGNS.sub("", s)`: delete every JSON-structural character. -/
def removeSigns (l : List Char) : List Char := l.filter (fun c => !jsonSignChar c)

/-- The alternation of the label regex (source line 172), in source order;
Python tries the branches left to right with backtracking. -/
def labelWords : List (List Char) :=
  ["title".data, "step".data, "steps".data, "ingredient".data, "ingredients".data,
   "description".data, "servings".data, "time_minutes".data]

/-- Case-insensitive prefix test (regex `re.I` on ASCII letters). -/
def ciStartsWith : List Char → List Char → Bool
  | [], _ => true
  | _ :: _, [] => false
  | w :: ws, c :: cs => (w.toLower == c.toLower) && ciStartsWith ws cs

/-- Try to match one alternation branch `word\s*:\s*` at the head of `l`;
returns the matched length.  `\s*` before `:` is greedy but must end at a
`:`, so it is exactly "skip whitespace, require a colon". -/
def labelTryWord (w : List Char) (l : List Char) : Option Nat :=
  if ciStartsWith w l then
    let rest := l.drop w.length
    let wsn := (rest.takeWhile isPySpace).length
    match rest.drop wsn with
    | ':' :: rest2 => some (w.length + wsn + 1 + (rest2.takeWhile isPySpace).length)
    | _ => Option.none
  else Option.none

/-- Full-match length of `\b(title|step|...)\s*:\s*` at the head of `l`
(the `\b` is checked by the caller).  Branches are tried in source order,
matching Python's alternation backtracking. -/
def labelMatchLen (l : List Char) : Option Nat :=
  labelWords.findSome? (fun w => labelTryWord w l)

/-- The scan of `re.sub(r"\b(title|...)\s*:\s*", "", s, flags=re.I)`:
`prevWord` is the word-character status of the previously scanned
character (`\b` before a letter holds iff the previous character is not a
word character or we are at the start).  After a removal, the last
consumed character is a colon or whitespace, so scanning resumes with
`prevWord = false`, exactly as in the original string.  Fuel only bounds
the recursion; `l.length` is always sufficient since every removal
consumes at least one character. -/
def removeLabelsGo : Nat → Bool → List Char → List Char
  | 0, _, l => l
  | _ + 1, _, [] => []
  | fuel + 1, prevWord, c :: cs =>
    if prevWord then c :: removeLabelsGo fuel (isWordChar c) cs
    else
      match labelMatchLen (c :: cs) with
      | some k => removeLabelsGo fuel false ((c :: cs).drop k)
      | Option.none => c :: removeLabelsGo fuel (isWordChar c) cs

def removeLabels (l : List Char) : List Char := removeLabelsGo l.length false l

/-- `re.sub(r"^\s*([0-9]+[\.)]|[-*•])\s*", "", s)`: anchored at the
start (no MULTILINE), so at most one leading marker is removed. -/
def removeMarker (l : List Char) : List Char :=
  let r := l.dropWhile isPySpace
  match r with
  | c :: cs =>
    if c.isDigit then
      let r2 := r.dropWhile Char.isDigit
      match r2 with
      | p :: cs2 => if p == '.' || p == ')' then cs2.dropWhile isPySpace else l
      | [] => l
    else if c == '-' || c == '*' || c == '•' then cs.dropWhile isPySpace
    else l
  | [] => l

/-- `re.sub(r"\s+", " ", s)`: each maximal whitespace run becomes one
space (emitted at the run's last character). -/
def collapseWs : List Char → List Char
  | [] => []
  | c :: cs =>
    if isPySpace c then
      match cs with
      | d :: _ => if isPySpace d then collapseWs cs else ' ' :: collapseWs cs
      | [] => [' ']
    else c :: collapseWs cs

mutual

/-- `re.sub(r"\s*,\s*", ", ", s)` as a buffering scan.  `buf` holds a
pending whitespace run: it is emitted unchanged when followed by a
non-comma, and absorbed into the match (replaced by `", "`) when followed
by a comma, matching the leftmost-scan semantics of the regex. -/
def commaSM : List Char → List Char → List Char
  | buf, [] => buf
  | buf, c :: cs =>
    if isPySpace c then commaSM (buf ++ [c]) cs
    else if c == ',' then ',' :: ' ' :: commaAfter cs
    else buf ++ c :: commaSM [] cs

/-- State after emitting `", "`: the greedy trailing `\s*` of the match
discards whitespace until the next non-whitespace character; a following
comma starts the next match immediately. -/
def commaAfter : List Char → List Char
  | [] => []
  | c :: cs =>
    if isPySpace c then commaAfter cs
    else if c == ',' then ',' :: ' ' :: commaAfter cs
    else c :: commaSM [] cs

end

/-- `_clean_text` (source lines 169-176) on a character list. -/
def cleanTextL (l : List Char) : List Char :=
  pstripL (commaSM [] (collapseWs (removeMarker (removeLabels (removeSigns (pstripL l))))))

/-- `_clean_text` (source lines 169-176). -/
def clean_text (s : String) : String := String.mk (cleanTextL s.data)

/-! ## Python values

The values that flow through the pipeline: JSON results, draft records
and their fields.  A raised exception is modelled by `Option.none` at
each point where the source can raise.  Float values are carried by
their numeric lexeme (only parse success, truthiness and best-effort
`int()` conversion of floats are ever consumed by this program). -/

inductive PyVal where
  | none
  | pybool (b : Bool)
  | int (n : Int)
  | float (lex : String)
  | str (s : String)
  | list (xs : List PyVal)
  | dict (kvs : List (String × PyVal))
deriving Repr

/-- Python `dict` lookup (keys unique by construction in reachable states). -/
def dictGet : List (String × PyVal) → String → Option PyVal
  | [], _ => Option.none
  | (k0, v0) :: rest, k => if k0 = k then some v0 else dictGet rest k

/-- `d.get(k)`: a missing key yields Python `None`. -/
def dictGetD (kvs : List (String × PyVal)) (k : String) : PyVal :=
  (dictGet kvs k).getD PyVal.none

/-- `d[k] = v`: replace the first binding in place, else append
(Python dicts keep the original insertion position on re-assignment). -/
def dictSet : List (String × PyVal) → String → PyVal → List (String × PyVal)
  | [], k, v => [(k, v)]
  | (k0, v0) :: rest, k, v =>
    if k0 = k then (k0, v) :: rest else (k0, v0) :: dictSet rest k v

mutual

/-- Python `str(v)` (`str()` of a `str` is the string itself; containers
render their elements with `repr`). -/
def pyStr : PyVal → String
  | .none => "None"
  | .pybool b => if b then "True" else "False"
  | .int n => toString n
  | .float lex => lex
  | .str s => s
  | .list xs => "[" ++ pyReprList xs ++ "]"
  | .dict kvs => "\x7b" ++ pyReprKvs kvs ++ "\x7d"

/-- Python `repr(v)`; strings are rendered with single quotes (the
escaping subtleties of `repr` are irrelevant here: the program only uses
rendered containers for truthiness tests and joined display text). -/
def pyRepr : PyVal → String
  | .none => "None"
  | .pybool b => if b then "True" else "False"
  | .int n => toString n
  | .float lex => lex
  | .str s => "\x27" ++ s ++ "\x27"
  | .list xs => "[" ++ pyReprList xs ++ "]"
  | .dict kvs => "\x7b" ++ pyReprKvs kvs ++ "\x7d"

def pyReprList : List PyVal → String
  | [] => ""
  | [x] => pyRepr x
  | x :: xs => pyRepr x ++ ", " ++ pyReprList xs

def pyReprKvs : List (String × PyVal) → String
  | [] => ""
  | [(k, v)] => "\x27" ++ k ++ "\x27: " ++ pyRepr v
  | (k, v) :: xs => "\x27" ++ k ++ "\x27: " ++ pyRepr v ++ ", " ++ pyReprKvs xs

end

/-- Truthiness of a float lexeme: zero iff the mantissa has no nonzero
digit (`NaN`/`Infinity` lexemes contain letters before any `e` cut and
are correctly truthy). -/
def floatLexTruthy (lex : String) : Bool :=
  (lex.data.takeWhile (fun c => c ≠ 'e' && c ≠ 'E')).any (fun c => c.isDigit && c ≠ '0')

/-- Python truthiness. -/
def pyTruthy : PyVal → Bool
  | .none => false
  | .pybool b => b
  | .int n => n != 0
  | .float lex => floatLexTruthy lex
  | .str s => !(s == "")
  | .list xs => !xs.isEmpty
  | .dict kvs => !kvs.isEmpty

/-- `a or b` (first operand when truthy, else the second). -/
def pyOr (a b : PyVal) : PyVal := if pyTruthy a then a else b

/-- Python `int(s)`: optional surrounding whitespace, optional sign,
at least one digit (digit-group underscores are not modelled; the
program never feeds them). -/
def intOfString (s : String) : Option Int :=
  let l := pstripL s.data
  let core : List Char → Option Int := fun ds =>
    if ds ≠ [] ∧ ds.all Char.isDigit then
      some (ds.foldl (fun acc c => acc * 10 + (c.toNat - '0'.toNat : Int)) 0)
    else Option.none
  match l with
  | '-' :: rest => (core rest).map (- ·)
  | '+' :: rest => core rest
  | _ => core l

/-- Digits of a character list as a natural number (helper). -/
def digitsToNat (ds : List Char) : Nat :=
  ds.foldl (fun acc c => acc * 10 + (c.toNat - '0'.toNat)) 0

/-- Python `int(float)` from a JSON float lexeme
`-?digits(.digits)?([eE][+-]?digits)?`: truncation toward zero. -/
def intOfFloatLex (lex : String) : Int :=
  let l := lex.data
  let (neg, l1) := match l with
    | '-' :: r => (true, r)
    | '+' :: r => (false, r)
    | _ => (false, l)
  let ip := l1.takeWhile Char.isDigit
  let l2 := l1.drop ip.length
  let (fp, l3) := match l2 with
    | '.' :: r => (r.takeWhile Char.isDigit, ('.' :: r).drop (1 + (r.takeWhile Char.isDigit).length))
    | _ => ([], l2)
  let expo : Int := match l3 with
    | 'e' :: '-' :: r => -(digitsToNat (r.takeWhile Char.isDigit) : Int)
    | 'E' :: '-' :: r => -(digitsToNat (r.takeWhile Char.isDigit) : Int)
    | 'e' :: '+' :: r => (digitsToNat (r.takeWhile Char.isDigit) : Int)
    | 'E' :: '+' :: r => (digitsToNat (r.takeWhile Char.isDigit) : Int)
    | 'e' :: r => (digitsToNat (r.takeWhile Char.isDigit) : Int)
    | 'E' :: r => (digitsToNat (r.takeWhile Char.isDigit) : Int)
    | _ => 0
  let m : Nat := digitsToNat (ip ++ fp)
  let scale : Int := expo - (fp.length : Int)
  let mag : Nat := match scale with
    | .ofNat k => m * 10 ^ k
    | .negSucc k => m / 10 ^ (k + 1)
  if neg then -(mag : Int) else (mag : Int)

/-- Python `int(v)`; `Option.none` models a raised
`TypeError`/`ValueError`. -/
def pyInt : PyVal → Option Int
  | .int n => some n
  | .pybool b => some (if b then 1 else 0)
  | .float lex =>
    if lex = "NaN" ∨ lex = "Infinity" ∨ lex = "-Infinity" then Option.none
    else some (intOfFloatLex lex)
  | .str s => intOfString s
  | _ => Option.none

/-- `_as_int` (source lines 206-210): best-effort `int()` with default. -/
def as_int (v : PyVal) (default : Int) : Int := (pyInt v).getD default

/-! ## Structural Coercion and Record Finalizer
(`_coerce_list`, `_plainify_ingredient`, `_plainify_step`,
`sanitize_recipe_data`, source lines 159-246) -/

/-- `_coerce_list` (source lines 159-167). -/
def coerce_list : PyVal → List PyVal
  | .none => []
  | .list xs => xs
  | .str s =>
    let pieces := if s.data.contains '\n' then pySplitlines s.data else splitChar ',' s.data
    ((pieces.map pstripL).filter (· ≠ [])).map (fun l => PyVal.str (String.mk l))
  | v => [v]

/-- Keys skipped when flattening an ingredient mapping (source line 188). -/
def stepLikeKeys : List String :=
  ["instructions", "instruction", "step", "direction", "text"]

/-- `", ".join` / `". ".join` helper. -/
def joinSep (sep : String) (xs : List String) : String := String.intercalate sep xs

/-- `_plainify_ingredient` (source lines 178-194). -/
def plainify_ingredient : PyVal → String
  | .dict kvs =>
    let name := pyOr (dictGetD kvs "name") (pyOr (dictGetD kvs "ingredient") (dictGetD kvs "item"))
    let qty := pyOr (dictGetD kvs "quantity") (pyOr (dictGetD kvs "amount") (dictGetD kvs "qty"))
    if pyTruthy name && pyTruthy qty then clean_text (pyStr name ++ " — " ++ pyStr qty)
    else if pyTruthy name then clean_text (pyStr name)
    else
      let pieces := (kvs.filter (fun kv => !stepLikeKeys.contains (pyLower kv.1))).map
        (fun kv => pyStr kv.2)
      if pieces.isEmpty then "Ingredient" else clean_text (joinSep ", " pieces)
  | .list xs => clean_text (joinSep ", " (xs.map pyStr))
  | v => clean_text (pyStr v)

/-- `_plainify_step` (source lines 196-204). -/
def plainify_step : PyVal → String
  | .dict kvs =>
    match stepLikeKeys.findSome? (fun k =>
        match dictGet kvs k with
        | some v => if pyStrip (pyStr v) ≠ "" then some (clean_text (pyStr v)) else Option.none
        | Option.none => Option.none) with
    | some r => r
    | Option.none => clean_text (joinSep ". " (kvs.map (fun kv => pyStr kv.2)))
  | .list xs => clean_text (joinSep ". " (xs.map pyStr))
  | v => clean_text (pyStr v)

/-- `dict(x)` for `out = dict(data or {})` (source line 213): a falsy
value yields the empty dict, a dict is copied, a sequence of key/value
pairs is consumed pairwise; anything else raises (`Option.none`).
Pair sequences with non-string keys are outside this string-keyed dict
model and are also mapped to the error case. -/
def pairOf (v : PyVal) : Option (String × PyVal) :=
  match v with
  | .list [PyVal.str k, w] => some (k, w)
  | .str s =>
    match s.data with
    | [a, b] => some (String.mk [a], PyVal.str (String.mk [b]))
    | _ => Option.none
  | _ => Option.none

def pyDictOf (v : PyVal) : Option (List (String × PyVal)) :=
  if !pyTruthy v then some []
  else match v with
  | .dict kvs => some kvs
  | .list xs => (xs.mapM pairOf).map (·.foldl (fun d kv => dictSet d kv.1 kv.2) [])
  | _ => Option.none

/-- `_clean_text(out.get(k) or "")` (source lines 214-215): the `or`
replaces a falsy field by `""`; `_clean_text` then calls `.strip()` on
its argument, which raises unless the value is a string
(`Option.none` models the raised `AttributeError`). -/
def cleanField (v : PyVal) : Option String :=
  if pyTruthy v then
    match v with
    | .str s => some (clean_text s)
    | _ => Option.none
  else some (clean_text "")

def chefTitle : String := "Chef\x27s Quick Weeknight Dish"

def defaultIngredients : List String := ["Salt", "Pepper", "Olive oil"]

def defaultSteps : List String := ["Combine ingredients and cook to taste."]

def titlePlaceholders : List String := ["untitled recipe", "recipe"]

def descPlaceholders : List String :=
  ["a delicious dish created by ai.", "a delicious dish created by ai"]

/-- The body of `sanitize_recipe_data` (source lines 216-246) after the
dict copy and the title/description cleaning succeeded: `t0`/`d0` are
the cleaned title and description texts. -/
def sanitizeCore (out0 : List (String × PyVal)) (t0 d0 : String) (idea : String) :
    List (String × PyVal) :=
  let title0 := pyStrip t0
  let desc0 := pyStrip d0
  let servings := as_int (dictGetD out0 "servings") 2
  let time_minutes := as_int (dictGetD out0 "time_minutes") 20
  let ingredients_raw := coerce_list (dictGetD out0 "ingredients")
  let steps_raw := coerce_list (dictGetD out0 "steps")
  let ingredients := (ingredients_raw.filter (fun x => pyStrip (pyStr x) ≠ "")).map plainify_ingredient
  let steps := (steps_raw.filter (fun x => pyStrip (pyStr x) ≠ "")).map plainify_step
  let title :=
    if title0 = "" ∨ titlePlaceholders.contains (pyLower title0) then
      (if pyStrip idea ≠ "" then pyTitle (pyStrip idea) else chefTitle)
    else title0
  let desc :=
    if desc0 = "" ∨ descPlaceholders.contains (pyLower desc0) then
      (if pyStrip idea ≠ "" then
        pyCapitalize (pyStrip idea) ++ " turned into a balanced, easy-to-cook recipe."
      else "A tasty, no-fuss recipe.")
    else desc0
  let ingredients2 := if ingredients.isEmpty then defaultIngredients else ingredients
  let steps2 := if steps.isEmpty then defaultSteps else steps
  dictSet (dictSet (dictSet (dictSet (dictSet (dictSet out0
    "title" (PyVal.str title))
    "description" (PyVal.str desc))
    "servings" (PyVal.int servings))
    "time_minutes" (PyVal.int time_minutes))
    "ingredients" (PyVal.list (ingredients2.map PyVal.str)))
    "steps" (PyVal.list (steps2.map PyVal.str))

/-- `sanitize_recipe_data` (source lines 212-246).  `Option.none` models
the exceptions the body can raise (`dict()` of a truthy non-mapping,
`.strip()` on a truthy non-string title/description). -/
def sanitize_recipe_data (data : PyVal) (idea : String) : Option (List (String × PyVal)) :=
  match pyDictOf data with
  | Option.none => Option.none
  | some out0 =>
    match cleanField (dictGetD out0 "title"), cleanField (dictGetD out0 "description") with
    | some t0, some d0 => some (sanitizeCore out0 t0 d0 idea)
    | _, _ => Option.none

/-! ## Session title registry (`RecipeStudio._unique_title`, lines 649-658) -/

/-- The `_seen_titles` dict: lower-cased title text → occurrence count. -/
def regGet : List (String × Nat) → String → Option Nat
  | [], _ => Option.none
  | (k0, n0) :: rest, k => if k0 = k then some n0 else regGet rest k

def regSet : List (String × Nat) → String → Nat → List (String × Nat)
  | [], k, n => [(k, n)]
  | (k0, n0) :: rest, k, n =>
    if k0 = k then (k0, n) :: rest else (k0, n0) :: regSet rest k n

/-- `_unique_title` (source lines 649-658): returns the updated registry
and the displayed title. -/
def unique_title (seen : List (String × Nat)) (title : String) :
    List (String × Nat) × String :=
  let base := pyStrip (if title = "" then chefTitle else title)
  let key := pyLower base
  let n := (regGet seen key).getD 0
  if n = 0 then (regSet seen key 1, base)
  else (regSet seen key (n + 1), base ++ " (v" ++ toString (n + 1) ++ ")")

/-- One registry consultation per finalized recipe in sequence. -/
def uniqueRun (seen : List (String × Nat)) : List String → List (String × Nat) × List String
  | [] => (seen, [])
  | t :: ts =>
    let (seen2, out) := unique_title seen t
    let (seen3, outs) := uniqueRun seen2 ts
    (seen3, out :: outs)

/-! ## `json.loads` model

Strict JSON (the CPython default decoder): objects, arrays, strings with
escapes, numbers `-?(0|[1-9]\d*)(\.\d+)?([eE][+-]?\d+)?`, the literals
`null`/`true`/`false` and the accepted constants `NaN`, `Infinity`,
`-Infinity`.  Numbers without fraction/exponent become `PyVal.int`;
others keep their lexeme as `PyVal.float`.  `Option.none` is a parse
error. -/

def jsonWs (c : Char) : Bool := c == ' ' || c == '\t' || c == '\n' || c == '\r'

def skipJsonWs (l : List Char) : List Char := l.dropWhile jsonWs

def hexVal (c : Char) : Option Nat :=
  if c.isDigit then some (c.toNat - '0'.toNat)
  else if 'a' ≤ c ∧ c ≤ 'f' then some (c.toNat - 'a'.toNat + 10)
  else if 'A' ≤ c ∧ c ≤ 'F' then some (c.toNat - 'A'.toNat + 10)
  else Option.none

/-- String body after the opening quote; rejects raw control characters
(strict mode) and unknown escapes. -/
def parseJStringGo : List Char → Option (List Char × List Char)
  | [] => Option.none
  | '"' :: r => some ([], r)
  | '\\' :: 'u' :: a :: b :: c :: d :: r =>
    match hexVal a, hexVal b, hexVal c, hexVal d with
    | some ha, some hb, some hc, some hd =>
      (parseJStringGo r).map (fun p =>
        (Char.ofNat (((ha * 16 + hb) * 16 + hc) * 16 + hd) :: p.1, p.2))
    | _, _, _, _ => Option.none
  | '\\' :: e :: r =>
    let esc : Option Char :=
      if e == '"' then some '"' else if e == '\\' then some '\\'
      else if e == '/' then some '/' else if e == 'b' then some '\x08'
      else if e == 'f' then some '\x0c' else if e == 'n' then some '\n'
      else if e == 'r' then some '\r' else if e == 't' then some '\t'
      else Option.none
    match esc with
    | some ec => (parseJStringGo r).map (fun p => (ec :: p.1, p.2))
    | Option.none => Option.none
  | c :: r =>
    if c.toNat < 32 then Option.none
    else (parseJStringGo r).map (fun p => (c :: p.1, p.2))

/-- JSON number at the head of `l`: returns the value and the rest. -/
def parseJNumber (l : List Char) : Option (PyVal × List Char) :=
  let (neg, l1) := match l with
    | '-' :: r => (true, r)
    | _ => (false, l)
  match l1 with
  | c :: _ =>
    if ¬ c.isDigit then Option.none
    else
      let ip := if c == '0' then ['0'] else l1.takeWhile Char.isDigit
      let l2 := l1.drop ip.length
      let (fp, l3) :=
        match l2 with
        | '.' :: r =>
          let ds := r.takeWhile Char.isDigit
          if ds = [] then ([], l2) else ('.' :: ds, r.drop ds.length)
        | _ => ([], l2)
      let (ep, l4) :=
        match l3 with
        | e :: rest =>
          if e == 'e' || e == 'E' then
            let (sgn, r2) := match rest with
              | '+' :: r2 => (['+'], r2)
              | '-' :: r2 => (['-'], r2)
              | _ => ([], rest)
            let ds := r2.takeWhile Char.isDigit
            if ds = [] then ([], l3) else (e :: (sgn ++ ds), r2.drop ds.length)
          else ([], l3)
        | [] => ([], l3)
      if fp = [] ∧ ep = [] then
        -- no fraction and no exponent consumed (a stray dot after the
        -- integer part stays in the rest and is rejected by the context,
        -- as with CPython's number regex)
        let n : Int := (digitsToNat ip : Int)
        some (PyVal.int (if neg then -n else n), l2)
      else
        some (PyVal.float (String.mk ((if neg then ['-'] else []) ++ ip ++ fp ++ ep)), l4)
  | [] => Option.none

mutual

/-- JSON value at the head of `l` (whitespace already skipped). -/
def parseJValue : Nat → List Char → Option (PyVal × List Char)
  | 0, _ => Option.none
  | fuel + 1, l =>
    match l with
    | '"' :: r => (parseJStringGo r).map (fun p => (PyVal.str (String.mk p.1), p.2))
    | '{' :: r => parseJObj fuel (skipJsonWs r) []
    | '[' :: r => parseJArr fuel (skipJsonWs r) []
    | 'n' :: 'u' :: 'l' :: 'l' :: r => some (PyVal.none, r)
    | 't' :: 'r' :: 'u' :: 'e' :: r => some (PyVal.pybool true, r)
    | 'f' :: 'a' :: 'l' :: 's' :: 'e' :: r => some (PyVal.pybool false, r)
    | 'N' :: 'a' :: 'N' :: r => some (PyVal.float "NaN", r)
    | 'I' :: 'n' :: 'f' :: 'i' :: 'n' :: 'i' :: 't' :: 'y' :: r => some (PyVal.float "Infinity", r)
    | '-' :: 'I' :: 'n' :: 'f' :: 'i' :: 'n' :: 'i' :: 't' :: 'y' :: r =>
      some (PyVal.float "-Infinity", r)
    | _ => parseJNumber l

/-- Object members; `l` is positioned at a key or `}` (whitespace
skipped); duplicate keys overwrite in place (CPython dict semantics). -/
def parseJObj (fuel : Nat) (l : List Char) (acc : List (String × PyVal)) :
    Option (PyVal × List Char) :=
  match fuel with
  | 0 => Option.none
  | fuel2 + 1 =>
    match l with
    | '}' :: r => some (PyVal.dict acc, r)
    | '"' :: r =>
      match parseJStringGo r with
      | some (k, r2) =>
        match skipJsonWs r2 with
        | ':' :: r3 =>
          match parseJValue fuel2 (skipJsonWs r3) with
          | some (v, r4) =>
            let acc2 := dictSet acc (String.mk k) v
            match skipJsonWs r4 with
            | ',' :: r5 =>
              match skipJsonWs r5 with
              | '"' :: r6 => parseJObj fuel2 ('"' :: r6) acc2
              | _ => Option.none
            | '}' :: r5 => some (PyVal.dict acc2, r5)
            | _ => Option.none
          | Option.none => Option.none
        | _ => Option.none
      | Option.none => Option.none
    | _ => Option.none

/-- Array elements; `l` is positioned at a value or `]` (whitespace
skipped). -/
def parseJArr (fuel : Nat) (l : List Char) (acc : List PyVal) :
    Option (PyVal × List Char) :=
  match fuel with
  | 0 => Option.none
  | fuel2 + 1 =>
    match l with
    | ']' :: r => some (PyVal.list acc.reverse, r)
    | _ =>
      match parseJValue fuel2 l with
      | some (v, r2) =>
        match skipJsonWs r2 with
        | ',' :: r3 =>
          match skipJsonWs r3 with
          | ']' :: _ => Option.none  -- trailing comma: CPython expects a value
          | l2 => parseJArr fuel2 l2 (v :: acc)
        | ']' :: r3 => some (PyVal.list (v :: acc).reverse, r3)
        | _ => Option.none
      | Option.none => Option.none

end

/-- `json.loads(s)`: a full parse with only whitespace allowed after the
value ("Extra data" otherwise). -/
def json_loads (s : String) : Option PyVal :=
  match parseJValue (s.length + 1) (skipJsonWs s.data) with
  | some (v, rest) => if skipJsonWs rest = [] then some v else Option.none
  | Option.none => Option.none

/-! ## JSON Extractor (`extract_json_block`, source lines 40-71) -/

def fenceTag : List Char := "\x60\x60\x60".data

def fenceJsonTag : List Char := "\x60\x60\x60json".data

/-- Non-greedy body of `(\{.*?\})\s*³` (³ = the closing fence): scan
forward from just after the `{`, stopping at the first `}` that is
followed by optional whitespace and a closing fence; `acc` is the
reversed text consumed so far. -/
def fenceBodyGo (acc : List Char) : List Char → Option (List Char)
  | [] => Option.none
  | '}' :: r =>
    if fenceTag.isPrefixOf (r.dropWhile isPySpace) then some (acc.reverse ++ ['}'])
    else fenceBodyGo ('}' :: acc) r
  | c :: r => fenceBodyGo (c :: acc) r

/-- Try the full fence pattern `tag\s*(\{.*?\})\s*³` at this position
(`re.I`: the tag letters are case-insensitive). -/
def fenceMatchAt (tag : List Char) (l : List Char) : Option (List Char) :=
  if ciStartsWith tag l then
    match (l.drop tag.length).dropWhile isPySpace with
    | '{' :: rest => (fenceBodyGo [] rest).map (fun body => '{' :: body)
    | _ => Option.none
  else Option.none

/-- `re.search`: leftmost start position at which the pattern matches. -/
def searchFence (tag : List Char) : List Char → Option (List Char)
  | [] => Option.none
  | c :: cs =>
    match fenceMatchAt tag (c :: cs) with
    | some g => some g
    | Option.none => searchFence tag cs

/-- Stage 1 (lines 45-50): a ```json fenced object, then `json.loads`
with failures swallowed. -/
def extract_stage1 (s : String) : Option PyVal :=
  (searchFence fenceJsonTag s.data).bind (fun g => json_loads (String.mk g))

/-- Stage 2 (lines 52-57): any fenced object. -/
def extract_stage2 (s : String) : Option PyVal :=
  (searchFence fenceTag s.data).bind (fun g => json_loads (String.mk g))

/-- Stage 3 (lines 59-66): for every `{` position left to right, try
every end position from the end of the text backward; first parse wins. -/
def extract_stage3 (s : String) : Option PyVal :=
  let text := s.data
  let n := text.length
  let starts := (List.range n).filter (fun i => (text.drop i).head? = some '{')
  starts.findSome? (fun st =>
    (List.range (n - st)).findSome? (fun k =>
      json_loads (String.mk ((text.drop st).take (n - k - st)))))

/-- Stage 4 (lines 68-71): the entire text parsed directly. -/
def extract_stage4 (s : String) : Option PyVal := json_loads s

/-- `extract_json_block` (source lines 40-71). -/
def extract_json_block (s : String) : Option PyVal :=
  if s = "" then Option.none
  else
    match extract_stage1 s with
    | some d => some d
    | Option.none =>
      match extract_stage2 s with
      | some d => some d
      | Option.none =>
        match extract_stage3 s with
        | some d => some d
        | Option.none => extract_stage4 s

/-! ## Heuristic Repairer (`repair_json_like`, source lines 73-99) -/

/-- Split at the first triple-backtick: `(before, after)`. -/
def findTripleGo (acc : List Char) : List Char → Option (List Char × List Char)
  | [] => Option.none
  | c :: cs =>
    if fenceTag.isPrefixOf (c :: cs) then some (acc.reverse, (c :: cs).drop 3)
    else findTripleGo (c :: acc) cs

/-- `re.sub(r"³.*?³", lambda m: m.group(0).replace("³", ""), text)`:
each non-greedy fenced region keeps its inner content; an unmatched
opening fence leaves the text unchanged from that point on. -/
def stripFencesGo : Nat → List Char → List Char
  | 0, l => l
  | fuel + 1, l =>
    match findTripleGo [] l with
    | Option.none => l
    | some (a, r) =>
      match findTripleGo [] r with
      | Option.none => l
      | some (b, r2) => a ++ b ++ stripFencesGo fuel r2

/-- `t[t.find("{") : t.rfind("}") + 1]` guarded by `"{" in t and "}" in t`
(source lines 87-88); Python slicing yields `""` when the bounds cross. -/
def sliceBraces (l : List Char) : List Char :=
  if l.contains '{' ∧ l.contains '}' then
    let i := (l.takeWhile (· ≠ '{')).length
    let j := l.length - 1 - (l.reverse.takeWhile (· ≠ '}')).length
    (l.drop i).take (j + 1 - i)
  else l

/-- `re.sub(r"(?<!\\)'", '"', t)` (line 90): replace every single quote
not immediately preceded by a backslash in the original text. -/
def singleToDouble : Bool → List Char → List Char
  | _, [] => []
  | prevBS, c :: cs =>
    (if c == '\x27' && !prevBS then '"' else c) :: singleToDouble (c == '\\') cs

mutual

/-- `re.sub(r'(\b[a-zA-Z_][a-zA-Z0-9_]*\b)\s*:', r'"\1":', t)` (line 92)
as a scan; `prevWord` carries the `\b` context.  A word run can only
start a match at a word boundary, so runs whose head is not at a
boundary (or starts with a digit) are copied verbatim. -/
def qkNormal : Bool → List Char → List Char
  | _, [] => []
  | prevWord, c :: cs =>
    if !prevWord && (c.isAlpha || c == '_') then qkWord [c] cs
    else c :: qkNormal (isWordChar c) cs

/-- Inside an identifier-like run (`buf` reversed); on `\s*:` the run is
wrapped in double quotes and the whitespace dropped. -/
def qkWord (buf : List Char) : List Char → List Char
  | [] => buf.reverse
  | c :: cs =>
    if isWordChar c then qkWord (c :: buf) cs
    else if c == ':' then '"' :: (buf.reverse ++ ['"', ':']) ++ qkNormal false cs
    else if isPySpace c then qkAfter buf [c] cs
    else buf.reverse ++ c :: qkNormal false cs

/-- After a run and some whitespace (`wsbuf` reversed): a colon closes
the match; anything else flushes the buffers and resumes (whitespace is
a word boundary, so a new run may start at once). -/
def qkAfter (buf wsbuf : List Char) : List Char → List Char
  | [] => buf.reverse ++ wsbuf.reverse
  | c :: cs =>
    if isPySpace c then qkAfter buf (c :: wsbuf) cs
    else if c == ':' then '"' :: (buf.reverse ++ ['"', ':']) ++ qkNormal false cs
    else if c.isAlpha || c == '_' then buf.reverse ++ wsbuf.reverse ++ qkWord [c] cs
    else buf.reverse ++ wsbuf.reverse ++ c :: qkNormal (isWordChar c) cs

end

mutual

/-- `re.sub(r",\s*([}\]])", r"\1", t)` (line 94) as a scan. -/
def dtcGo : List Char → List Char
  | [] => []
  | c :: cs => if c == ',' then dtcComma [] cs else c :: dtcGo cs

/-- After a comma: buffer whitespace; a closing `}`/`]` consumes the
comma and the whitespace, anything else restores them. -/
def dtcComma (wsbuf : List Char) : List Char → List Char
  | [] => ',' :: wsbuf.reverse
  | c :: cs =>
    if isPySpace c then dtcComma (c :: wsbuf) cs
    else if c == '}' || c == ']' then c :: dtcGo cs
    else if c == ',' then ',' :: wsbuf.reverse ++ dtcComma [] cs
    else ',' :: wsbuf.reverse ++ c :: dtcGo cs

end

/-- `repair_json_like` (source lines 73-99). -/
def repair_json_like (s : String) : Option PyVal :=
  if s = "" then Option.none
  else json_loads (String.mk (dtcGo (qkNormal false (singleToDouble false
    (sliceBraces (stripFencesGo s.data.length s.data))))))

/-! ## Heuristic Text Extractor (`heuristic_from_text`, source lines 101-156) -/

/-- `\s*[:\n]+` after a section word: the greedy `\s*` backtracks just
enough to leave at least one `:`/`\n` for the bracket class, so either
the whitespace run is followed by a colon, or it contains a newline and
the bracket class consumes the last one. -/
def matchColonRun (t : List Char) : Option (List Char) :=
  let w := t.takeWhile isPySpace
  let r := t.drop w.length
  match r with
  | ':' :: _ => some (r.dropWhile (fun c => c == ':' || c == '\n'))
  | _ =>
    if w.contains '\n' then
      some (t.drop (w.length - (w.reverse.takeWhile (· ≠ '\n')).length))
    else Option.none

/-- `(ingredients?)\s*[:\n]+` at this position (`re.I`; the optional `s`
is greedy, with backtracking). -/
def ingMatchAt (l : List Char) : Option (List Char) :=
  if ciStartsWith "ingredient".data l then
    let r := l.drop 10
    let withS : Option (List Char) :=
      match r with
      | c :: r2 => if c.toLower == 's' then matchColonRun r2 else Option.none
      | [] => Option.none
    match withS with
    | some rem => some rem
    | Option.none => matchColonRun r
  else Option.none

/-- `(steps?|method|directions?)` alternation, greedy optional `s`. -/
def stepWords : List (List Char) :=
  ["steps".data, "step".data, "method".data, "directions".data, "direction".data]

def wordThenColon (w : List Char) (l : List Char) : Bool :=
  ciStartsWith w l &&
    (match (l.drop w.length).dropWhile isPySpace with
     | ':' :: _ => true
     | _ => false)

/-- The section boundary inside the ingredients regex:
`\n\s*(steps?|method|directions?)\s*:`. -/
def stepsBoundary (l : List Char) : Bool :=
  match l with
  | '\n' :: r => stepWords.any (fun w => wordThenColon w (r.dropWhile isPySpace))
  | _ => false

/-- The non-greedy `(.*?)` group: text up to the earliest boundary, or
the whole rest (`\Z`). -/
def takeUntilStepsBoundary : List Char → List Char
  | [] => []
  | c :: cs => if stepsBoundary (c :: cs) then [] else c :: takeUntilStepsBoundary cs

/-- Leftmost match of the ingredients-section regex (line 113); its
group 2. -/
def ingSectionGo : List Char → Option (List Char)
  | [] => Option.none
  | c :: cs =>
    match ingMatchAt (c :: cs) with
    | some rem => some (takeUntilStepsBoundary rem)
    | Option.none => ingSectionGo cs

/-- `(steps?|method|directions?)\s*[:\n]+` at this position. -/
def stepsMatchAt (l : List Char) : Option (List Char) :=
  stepWords.findSome? (fun w =>
    if ciStartsWith w l then matchColonRun (l.drop w.length) else Option.none)

/-- Leftmost match of the steps-section regex (line 114); its greedy
group 2 is the whole rest of the text. -/
def stepsSectionGo : List Char → Option (List Char)
  | [] => Option.none
  | c :: cs =>
    match stepsMatchAt (c :: cs) with
    | some rem => some rem
    | Option.none => stepsSectionGo cs

/-- `line.strip(" -*\t\r\n")` character set (lines 119 and 126). -/
def ingStripChars : List Char := [' ', '-', '*', '\t', '\r', '\n']

/-- Ingredient entries from a labeled section block (lines 117-121). -/
def ingLines (block : List Char) : List String :=
  (((pySplitlines block).map (pstripSet ingStripChars)).filter (· ≠ [])).map
    (fun l => String.mk l)

/-- `re.match(r"\s*[-*]\s+", line)` (line 125). -/
def bulletLine (line : List Char) : Bool :=
  match line.dropWhile isPySpace with
  | c :: d :: _ => (c == '-' || c == '*') && isPySpace d
  | _ => false

/-- Fallback: dashed lines anywhere (lines 123-126); no emptiness
filtering here. -/
def ingFallback (cleaned : List Char) : List String :=
  ((pySplitlines cleaned).filter bulletLine).map (fun l => String.mk (pstripSet ingStripChars l))

def ingOf (cleaned : List Char) : List String :=
  match ingSectionGo cleaned with
  | some block => ingLines block
  | Option.none => ingFallback cleaned

/-- The numbering class `[\).\s-]`. -/
def markChar (c : Char) : Bool := c == ')' || c == '.' || c == '-' || isPySpace c

/-- `re.match(r"^\s*\d+[\).\s-]+", line)`. -/
def numberedMatch (line : List Char) : Bool :=
  let r := line.dropWhile isPySpace
  let ds := r.takeWhile Char.isDigit
  !ds.isEmpty &&
    (match r.drop ds.length with
     | c :: _ => markChar c
     | [] => false)

/-- `re.sub(r"^\s*\d+[\).\s-]+\s*", "", line)` (applied only when the
match test succeeds; the final `\s*` is subsumed by the greedy class). -/
def numberedStrip (line : List Char) : List Char :=
  let r := line.dropWhile isPySpace
  (r.drop (r.takeWhile Char.isDigit).length).dropWhile markChar

/-- Step entries (lines 128-141): from a labeled section keep every
nonempty line with numbering stripped; otherwise collect the numbered
lines anywhere (without an emptiness check). -/
def stepsOf (cleaned : List Char) : List String :=
  match stepsSectionGo cleaned with
  | some block =>
    ((((pySplitlines block).map (fun line =>
        let l2 := pstripL line
        if numberedMatch l2 then numberedStrip l2 else l2)).filter (· ≠ []))).map
      (fun l => String.mk l)
  | Option.none =>
    ((pySplitlines cleaned).filter numberedMatch).map
      (fun l => String.mk (pstripL (numberedStrip l)))

/-- `text.replace("•", "-")` (source line 107). -/
def cleanedOf (text : String) : List Char :=
  text.data.map (fun c => if c == '•' then '-' else c)

/-- `heuristic_from_text` (source lines 101-156). -/
def heuristic_from_text (text : String) (idea : String) : List (String × PyVal) :=
  let cleaned := cleanedOf text
  let ing := ingOf cleaned
  let steps := stepsOf cleaned
  let ing2 := if ing.isEmpty then defaultIngredients else ing
  let steps2 := if steps.isEmpty then defaultSteps else steps
  let ideaS := pyStrip idea
  [("title", PyVal.str (if ideaS ≠ "" then pyTitle ideaS else chefTitle)),
   ("description", PyVal.str (if ideaS ≠ "" then
      pyCapitalize ideaS ++ " turned into a balanced, easy-to-cook recipe."
    else "A tasty, no-fuss recipe.")),
   ("servings", PyVal.int 2),
   ("time_minutes", PyVal.int 20),
   ("ingredients", PyVal.list (ing2.map PyVal.str)),
   ("steps", PyVal.list (steps2.map PyVal.str))]

/-! ## Model call and generation flow
(`RecipeStudio._call_model`, lines 430-455;
`RecipeStudio._generate_and_render`, lines 471-493)

The transport is an oracle `String → Option String`: `some text` is the
response of `_call_model_once` for a prompt, `Option.none` a raised
transport exception (network error, bad status, timeout). -/

/-- `build_prompt` (source lines 30-35). -/
def build_prompt (idea : String) : String :=
  "User idea: " ++ (if idea = "" then "Create a great new dish." else idea) ++
  "\nReturn JSON only (no code fences). Use realistic servings/time, " ++
  "a short description, a clear ingredient list, and 5–10 concise steps."

/-- `if d: return d` — keep a parse result only when truthy. -/
def truthyOpt (o : Option PyVal) : Option PyVal :=
  o.bind (fun d => if pyTruthy d then some d else Option.none)

/-- Stages A and B of the per-prompt loop body (lines 443-450). -/
def stageAB (text : String) : Option PyVal :=
  match truthyOpt (extract_json_block text) with
  | some d => some d
  | Option.none => truthyOpt (repair_json_like text)

/-- The second loop iteration and the stage-C fallback of `_call_model`;
`lt` is `last_text` after the first iteration. -/
def call_model_second (tr : String → Option String) (idea : String) (lt : String) : PyVal :=
  match tr (build_prompt "Create a great new dish.") with
  | some text2 =>
    let lt2 := if text2 = "" then lt else text2
    match stageAB text2 with
    | some d => d
    | Option.none => PyVal.dict (heuristic_from_text lt2 idea)
  | Option.none => PyVal.dict (heuristic_from_text lt idea)

/-- `_call_model` (source lines 430-455): two prompt attempts, each with
exceptions swallowed, then the heuristic extractor on the last text. -/
def call_model (tr : String → Option String) (idea : String) : PyVal :=
  match tr (build_prompt idea) with
  | some text1 =>
    let lt1 := if text1 = "" then "" else text1
    match stageAB text1 with
    | some d => d
    | Option.none => call_model_second tr idea lt1
  | Option.none => call_model_second tr idea ""

/-- The `except` branch of `_generate_and_render` (lines 482-488): a
stable recipe from the idea alone.  An exception raised inside this
handler would escape to the display layer; that is the `Option.none`
result (shown unreachable in the theorems). -/
def generate_fallback (idea : String) (seen : List (String × Nat)) :
    Option (List (String × PyVal) × List (String × Nat)) :=
  match sanitize_recipe_data (PyVal.dict (heuristic_from_text "" idea)) idea with
  | some d2 =>
    match dictGetD d2 "title" with
    | PyVal.str t =>
      let (seen2, t2) := unique_title seen t
      some (dictSet d2 "title" (PyVal.str t2), seen2)
    | _ => Option.none
  | Option.none => Option.none

/-- The data computation of `_generate_and_render` (lines 471-493),
excluding rendering: returns the displayed record and the updated title
registry; `Option.none` would be an exception reaching the display
layer. -/
def generate (tr : String → Option String) (idea : String) (seen : List (String × Nat)) :
    Option (List (String × PyVal) × List (String × Nat)) :=
  let raw := call_model tr idea
  match sanitize_recipe_data raw idea with
  | some data =>
    match pyOr (dictGetD data "title") (PyVal.str chefTitle) with
    | PyVal.str t =>
      let (seen2, t2) := unique_title seen t
      some (dictSet data "title" (PyVal.str t2), seen2)
    | _ => generate_fallback idea seen
  | Option.none => generate_fallback idea seen

/-- The §3 Recipe invariant, in the amended form that the code satisfies:
non-empty title and description with integer servings/time and non-empty
string lists; the description never matches a known placeholder, and the
title matches one only when the stripped idea itself lowercases to one. -/
def RecipeInvariant (d : List (String × PyVal)) (idea : String) : Prop :=
  (∃ t, dictGetD d "title" = PyVal.str t ∧ t ≠ "" ∧
    (titlePlaceholders.contains (pyLower t) = false ∨
      titlePlaceholders.contains (pyLower (pyStrip idea)) = true)) ∧
  (∃ dsc, dictGetD d "description" = PyVal.str dsc ∧ dsc ≠ "" ∧
    descPlaceholders.contains (pyLower dsc) = false) ∧
  (∃ n : Int, dictGetD d "servings" = PyVal.int n) ∧
  (∃ m : Int, dictGetD d "time_minutes" = PyVal.int m) ∧
  (∃ ls, ls ≠ [] ∧ dictGetD d "ingredients" = PyVal.list (ls.map PyVal.str)) ∧
  (∃ ss, ss ≠ [] ∧ dictGetD d "steps" = PyVal.list (ss.map PyVal.str))

/-! ## Helper lemmas: dictionaries and the registry -/

theorem dictGet_dictSet_self (d : List (String × PyVal)) (k : String) (v : PyVal) :
    dictGet (dictSet d k v) k = some v := by
  induction d with
  | nil => simp [dictSet, dictGet]
  | cons kv rest ih =>
    by_cases h : kv.1 = k
    · simp [dictSet, dictGet, h]
    · simp [dictSet, dictGet, h, ih]

theorem dictGet_dictSet_ne (d : List (String × PyVal)) (k k' : String) (v : PyVal)
    (h : k' ≠ k) : dictGet (dictSet d k' v) k = dictGet d k := by
  induction d with
  | nil => simp [dictSet, dictGet, h]
  | cons kv rest ih =>
    by_cases h2 : kv.1 = k'
    · simp [dictSet, dictGet, h2, h]
    · simp [dictSet, dictGet, h2, ih]

theorem regGet_regSet_self (st : List (String × Nat)) (k : String) (n : Nat) :
    regGet (regSet st k n) k = some n := by
  induction st with
  | nil => simp [regSet, regGet]
  | cons kv rest ih =>
    by_cases h : kv.1 = k
    · simp [regSet, regGet, h]
    · simp [regSet, regGet, h, ih]

/-! ## Claim theorems: concrete computations and easy contracts -/

/-- Claim C5 (code bug evidence): the title registry does not guarantee
unique displayed titles — three finalized recipes titled "Garlic Bread",
"Garlic Bread", "Garlic Bread (v2)" render two identical titles, because
a fresh input title can collide with an earlier suffixed output. -/
theorem c5_duplicate_displayed_title :
    (uniqueRun [] ["Garlic Bread", "Garlic Bread", "Garlic Bread (v2)"]).2 =
      ["Garlic Bread", "Garlic Bread (v2)", "Garlic Bread (v2)"] ∧
    ¬ (uniqueRun [] ["Garlic Bread", "Garlic Bread", "Garlic Bread (v2)"]).2.Nodup :=
  ⟨rfl, by decide⟩

/-- Claim C6: `_unique_title` does a case-insensitive lookup; a repeat
occurrence (count `n ≥ 1`) returns the stripped base with suffix
`" (v{n+1})"` and stores `n+1`; and the canonical trace holds: two calls
on "Garlic Bread" then one on "garlic bread" yield "Garlic Bread",
"Garlic Bread (v2)" and a case-insensitive "Garlic Bread (v3)"
equivalent, the first call having recorded count 1. -/
theorem c6_unique_title_contract (seen : List (String × Nat)) (t : String) (n : Nat)
    (h : regGet seen (pyLower (pyStrip (if t = "" then chefTitle else t))) = some n)
    (hn : 0 < n) :
    (unique_title seen t).2 =
      pyStrip (if t = "" then chefTitle else t) ++ " (v" ++ toString (n + 1) ++ ")" ∧
    regGet (unique_title seen t).1 (pyLower (pyStrip (if t = "" then chefTitle else t))) =
      some (n + 1) ∧
    (uniqueRun [] ["Garlic Bread", "Garlic Bread", "garlic bread"]).2 =
      ["Garlic Bread", "Garlic Bread (v2)", "garlic bread (v3)"] ∧
    pyLower "garlic bread (v3)" = pyLower "Garlic Bread (v3)" ∧
    (unique_title [] "Garlic Bread").1 = [("garlic bread", 1)] := by
  have hne : n ≠ 0 := Nat.pos_iff_ne_zero.mp hn
  refine ⟨?_, ?_, rfl, rfl, rfl⟩
  · simp [unique_title, h, hne]
  · simp [unique_title, h, hne, regGet_regSet_self]

/-- Witness for C6 at a concrete seen registry. -/
theorem c6_unique_title_contract_witness :
    regGet [("garlic bread", 1)]
        (pyLower (pyStrip (if "Garlic Bread" = "" then chefTitle else "Garlic Bread"))) =
      some 1 ∧
    0 < 1 ∧
    (unique_title [("garlic bread", 1)] "Garlic Bread").2 = "Garlic Bread (v2)" := by
  refine ⟨rfl, by decide, ?_⟩
  have h := (c6_unique_title_contract [("garlic bread", 1)] "Garlic Bread" 1 rfl (by decide)).1
  rw [h]
  rfl

/-- Claim C7 (counterexample): on the input "5" the extractor returns a
parsed integer, which is neither a keyed mapping nor null. -/
theorem c7_counterexample_nonrecord :
    extract_json_block "5" = some (PyVal.int 5) ∧
    ∀ kvs : List (String × PyVal), PyVal.int 5 ≠ PyVal.dict kvs :=
  ⟨rfl, fun _ h => PyVal.noConfusion h⟩

/-- Claim C7 (amended): the extractor is total by construction
(`Option`-valued: every parse failure in every strategy is swallowed)
and returns null exactly when all four strategies fail; strategy 4 may
return any parsed JSON value, not only a keyed mapping. -/
theorem c7_extract_null_iff (s : String) :
    extract_json_block s = Option.none ↔
      (extract_stage1 s = Option.none ∧ extract_stage2 s = Option.none ∧
        extract_stage3 s = Option.none ∧ extract_stage4 s = Option.none) := by
  by_cases hs : s = ""
  · subst hs
    exact ⟨fun _ => ⟨rfl, rfl, rfl, rfl⟩, fun _ => rfl⟩
  · unfold extract_json_block
    rw [if_neg hs]
    cases h1 : extract_stage1 s with
    | some d => simp [h1]
    | none =>
      cases h2 : extract_stage2 s with
      | some d => simp [h2]
      | none =>
        cases h3 : extract_stage3 s with
        | some d => simp [h3]
        | none => simp [h3]

/-- Claim C8: the heuristic repairer turns the almost-JSON input
(single quotes, bare keys, trailing comma) into a parsed object whose
title is "Soup". -/
theorem c8_repair_soup :
    repair_json_like
        "\x7btitle: \x27Soup\x27, servings: 2, ingredients: [\x27Water\x27], steps: [\x27Boil\x27],\x7d" =
      some (PyVal.dict [("title", PyVal.str "Soup"), ("servings", PyVal.int 2),
        ("ingredients", PyVal.list [PyVal.str "Water"]), ("steps", PyVal.list [PyVal.str "Boil"])]) ∧
    dictGet [("title", PyVal.str "Soup"), ("servings", PyVal.int 2),
        ("ingredients", PyVal.list [PyVal.str "Water"]), ("steps", PyVal.list [PyVal.str "Boil"])]
      "title" = some (PyVal.str "Soup") :=
  ⟨rfl, rfl⟩

/-- Claim C2 (counterexample): the text sanitizer is not idempotent —
the leading-marker stage removes only one marker per pass, so
`"--x"` sanitizes to `"-x"`, which sanitizes again to `"x"`. -/
theorem c2_counterexample_not_idempotent :
    clean_text "--x" = "-x" ∧ clean_text (clean_text "--x") = "x" ∧
    clean_text (clean_text "--x") ≠ clean_text "--x" :=
  ⟨rfl, rfl, by decide⟩

/-- Claim C1 (counterexample): the emptiness filter runs on the raw
entries (`str(x).strip()`), not on the sanitized text, so the raw
ingredient `"[]"` is kept and sanitizes to the empty string: the
finalized record contains an empty ingredient entry. -/
theorem c1_counterexample_empty_entry :
    (sanitize_recipe_data (PyVal.dict [("ingredients", PyVal.list [PyVal.str "[]"]),
        ("steps", PyVal.list [PyVal.str "Boil"])]) "x").map
      (fun out => dictGetD out "ingredients") = some (PyVal.list [PyVal.str ""]) :=
  rfl

/-- Claim C4 (counterexample): with a failing transport and the idea
"untitled recipe", generation completes but the displayed title is the
placeholder "Untitled Recipe", violating the §3 invariant that the title
not match a known placeholder. -/
theorem c4_counterexample_placeholder_title :
    (generate (fun _ => Option.none) "untitled recipe" []).map (fun p => dictGetD p.1 "title") =
      some (PyVal.str "Untitled Recipe") ∧
    titlePlaceholders.contains (pyLower "Untitled Recipe") = true :=
  ⟨rfl, rfl⟩


/-! ## Helper lemmas: characters and stripping -/

theorem isPySpace_toUpper (c : Char) : isPySpace (Char.toUpper c) = isPySpace c := by
  by_cases h : c.toNat ≥ 97 ∧ c.toNat ≤ 122
  · have e : Char.toUpper c = Char.ofNat (c.toNat - 32) := if_pos h
    rw [e]
    have key : ∀ k, k < 123 → 97 ≤ k →
        isPySpace (Char.ofNat (k - 32)) = isPySpace (Char.ofNat k) := by decide
    have h3 := key c.toNat (by omega) h.1
    rwa [Char.ofNat_toNat] at h3
  · have e : Char.toUpper c = c := if_neg h
    rw [e]

theorem isPySpace_toLower (c : Char) : isPySpace (Char.toLower c) = isPySpace c := by
  by_cases h : c.toNat ≥ 65 ∧ c.toNat ≤ 90
  · have e : Char.toLower c = Char.ofNat (c.toNat + 32) := if_pos h
    rw [e]
    have key : ∀ k, k < 91 → 65 ≤ k →
        isPySpace (Char.ofNat (k + 32)) = isPySpace (Char.ofNat k) := by decide
    have h3 := key c.toNat (by omega) h.1
    rwa [Char.ofNat_toNat] at h3
  · have e : Char.toLower c = c := if_neg h
    rw [e]

theorem toLower_toUpper (c : Char) : Char.toLower (Char.toUpper c) = Char.toLower c := by
  by_cases h : c.toNat ≥ 97 ∧ c.toNat ≤ 122
  · have e : Char.toUpper c = Char.ofNat (c.toNat - 32) := if_pos h
    rw [e]
    have key : ∀ k, k < 123 → 97 ≤ k →
        Char.toLower (Char.ofNat (k - 32)) = Char.toLower (Char.ofNat k) := by decide
    have h3 := key c.toNat (by omega) h.1
    rwa [Char.ofNat_toNat] at h3
  · have e : Char.toUpper c = c := if_neg h
    rw [e]

theorem toLower_toLower (c : Char) : Char.toLower (Char.toLower c) = Char.toLower c := by
  by_cases h : c.toNat ≥ 65 ∧ c.toNat ≤ 90
  · have e : Char.toLower c = Char.ofNat (c.toNat + 32) := if_pos h
    rw [e]
    have key : ∀ k, k < 91 → 65 ≤ k →
        Char.toLower (Char.ofNat (k + 32)) = Char.ofNat (k + 32) := by decide
    exact key c.toNat (by omega) h.1
  · have e : Char.toLower c = c := if_neg h
    rw [e, e]

theorem dropWhile_head_false {p : Char → Bool} {l : List Char} {c : Char} {r : List Char}
    (h : l.dropWhile p = c :: r) : p c = false := by
  have h2 := List.head?_dropWhile_not p l
  rw [h] at h2
  simpa using h2

theorem dropWhile_cons_self {p : Char → Bool} {c : Char} {r : List Char}
    (h : p c = false) : (c :: r).dropWhile p = c :: r := by
  simp [List.dropWhile_cons, h]

theorem pstripL_idem (l : List Char) : pstripL (pstripL l) = pstripL l := by
  unfold pstripL
  cases hbe : (l.dropWhile isPySpace).reverse.dropWhile isPySpace with
  | nil => simp [hbe]
  | cons c r =>
    have hc : isPySpace c = false := dropWhile_head_false hbe
    have hsuf : (c :: r) <:+ (l.dropWhile isPySpace).reverse := by
      rw [← hbe]; exact List.dropWhile_suffix _
    obtain ⟨pre, hpre⟩ := hsuf
    have hlast : (l.dropWhile isPySpace).head? = (c :: r).getLast? := by
      rw [← List.getLast?_reverse, ← hpre, List.getLast?_append]
      cases h2 : (c :: r).getLast? with
      | none => simp at h2
      | some d => simp [h2]
    cases hdl : l.dropWhile isPySpace with
    | nil => rw [hdl] at hpre; simp at hpre
    | cons d ds =>
      have hd : isPySpace d = false := dropWhile_head_false hdl
      rw [hdl] at hlast
      have hd2 : (c :: r).getLast? = some d := hlast.symm
      have hrv : ∃ rr, (c :: r).reverse = d :: rr := by
        cases hrv2 : (c :: r).reverse with
        | nil => simp at hrv2
        | cons x xs =>
          have hx : (c :: r).getLast? = some x := by
            rw [← List.head?_reverse, hrv2]; rfl
          rw [hd2] at hx
          exact ⟨xs, by rw [Option.some.injEq] at hx; rw [hx]⟩
      obtain ⟨rr, hrr⟩ := hrv
      rw [hrr, dropWhile_cons_self hd, ← hrr, List.reverse_reverse,
        dropWhile_cons_self hc]

theorem pstripL_eq_nil_iff (l : List Char) :
    pstripL l = [] ↔ ∀ c ∈ l, isPySpace c = true := by
  unfold pstripL
  rw [List.reverse_eq_nil_iff, List.dropWhile_eq_nil_iff]
  constructor
  · intro h c hc
    rcases (List.mem_append.mp (by rw [List.takeWhile_append_dropWhile (p := isPySpace)]; exact hc)) with h1 | h1
    · exact List.mem_takeWhile_imp h1
    · exact h c (List.mem_reverse.mpr h1)
  · intro h c hc
    exact h c (List.IsSuffix.mem (List.mem_reverse.mp hc) (List.dropWhile_suffix _))

theorem pstripL_ne_nil_of_mem (l : List Char) (c : Char) (hc : c ∈ l)
    (hw : isPySpace c = false) : pstripL l ≠ [] := by
  intro h
  have := (pstripL_eq_nil_iff l).mp h c hc
  rw [hw] at this
  cases this

theorem exists_nonspace_of_pstripL_ne_nil (l : List Char) (h : pstripL l ≠ []) :
    ∃ c ∈ l, isPySpace c = false := by
  by_contra hall
  push_neg at hall
  exact h ((pstripL_eq_nil_iff l).mpr (fun c hc => by
    have := hall c hc
    cases hic : isPySpace c
    · exact absurd hic this
    · rfl))

theorem titleGo_exists_nonspace (l : List Char) (p : Bool)
    (h : ∃ c ∈ l, isPySpace c = false) :
    ∃ c ∈ pyTitleGo p l, isPySpace c = false := by
  induction l generalizing p with
  | nil => simp at h
  | cons c cs ih =>
    obtain ⟨d, hd, hdw⟩ := h
    rcases List.mem_cons.mp hd with rfl | hdc
    · refine ⟨if d.isAlpha then (if p then d.toLower else d.toUpper) else d, ?_, ?_⟩
      · simp [pyTitleGo]
      · by_cases ha : d.isAlpha
        · by_cases hp : p <;> simp [ha, hp, isPySpace_toLower, isPySpace_toUpper, hdw]
        · simpa [ha] using hdw
    · obtain ⟨e, he, hew⟩ := ih c.isAlpha ⟨d, hdc, hdw⟩
      exact ⟨e, by simp [pyTitleGo, he], hew⟩

theorem map_toLower_titleGo (l : List Char) (p : Bool) :
    (pyTitleGo p l).map Char.toLower = l.map Char.toLower := by
  induction l generalizing p with
  | nil => rfl
  | cons c cs ih =>
    simp only [pyTitleGo, List.map_cons, ih]
    by_cases ha : c.isAlpha
    · by_cases hp : p <;> simp [ha, hp, toLower_toLower, toLower_toUpper]
    · simp [ha]

/-- `str.lower()` commutes with `str.strip()`. -/
theorem pstripL_map_toLower (l : List Char) :
    pstripL (l.map Char.toLower) = (pstripL l).map Char.toLower := by
  unfold pstripL
  have hp : (isPySpace ∘ Char.toLower) = isPySpace := by
    funext c
    exact isPySpace_toLower c
  rw [List.dropWhile_map, hp, ← List.map_reverse, List.dropWhile_map, hp, ← List.map_reverse]

theorem pyLower_pyStrip (s : String) : pyLower (pyStrip s) = pyStrip (pyLower s) := by
  show String.mk ((pstripL s.data).map Char.toLower) = String.mk (pstripL (s.data.map Char.toLower))
  rw [pstripL_map_toLower]

theorem pyLower_pyTitle (s : String) : pyLower (pyTitle s) = pyLower s := by
  show String.mk ((pyTitleGo false s.data).map Char.toLower) = String.mk (s.data.map Char.toLower)
  rw [map_toLower_titleGo]

theorem pyStrip_pyStrip (s : String) : pyStrip (pyStrip s) = pyStrip s := by
  show String.mk (pstripL (pstripL s.data)) = String.mk (pstripL s.data)
  rw [pstripL_idem]

theorem pyStrip_clean_text (s : String) : pyStrip (clean_text s) = clean_text s := by
  show String.mk (pstripL (cleanTextL s.data)) = String.mk (cleanTextL s.data)
  unfold cleanTextL
  rw [pstripL_idem]

theorem cleanField_str (s : String) : cleanField (PyVal.str s) = some (clean_text s) := by
  unfold cleanField
  by_cases h : s = ""
  · subst h
    rfl
  · have : pyTruthy (PyVal.str s) = true := by
      simp [pyTruthy, h]
    rw [this]
    simp

theorem pyDictOf_dict (kvs : List (String × PyVal)) :
    pyDictOf (PyVal.dict kvs) = some kvs := by
  unfold pyDictOf
  cases kvs with
  | nil => rfl
  | cons kv rest => rfl

/-! ## Helper lemmas: placeholder avoidance for generated text -/

theorem lower_append_beq_false (y C ph : String) (n : Nat)
    (hmap : C.data.map Char.toLower = C.data)
    (hn : n ≤ C.data.length)
    (hne : C.data.reverse.take n ≠ ph.data.reverse.take n) :
    (pyLower (y ++ C) == ph) = false := by
  rw [beq_eq_false_iff_ne]
  intro e
  apply hne
  have hdata : (pyLower (y ++ C)).data = y.data.map Char.toLower ++ C.data := by
    show ((y ++ C).data.map Char.toLower) = _
    rw [String.data_append, List.map_append, hmap]
  have h2 : (y.data.map Char.toLower ++ C.data).reverse.take n = ph.data.reverse.take n := by
    rw [← hdata, e]
  rw [List.reverse_append, List.take_append_of_le_length (by simpa using hn)] at h2
  exact h2

theorem title_suffix_not_placeholder (y : String) :
    titlePlaceholders.contains (pyLower (y ++ ")")) = false := by
  have h1 := lower_append_beq_false y ")" "untitled recipe" 1 (by decide) (by decide) (by decide)
  have h2 := lower_append_beq_false y ")" "recipe" 1 (by decide) (by decide) (by decide)
  simp [titlePlaceholders, List.contains, List.elem, h1, h2]

theorem desc_suffix_not_placeholder (y : String) :
    descPlaceholders.contains
      (pyLower (y ++ " turned into a balanced, easy-to-cook recipe.")) = false := by
  have h1 := lower_append_beq_false y " turned into a balanced, easy-to-cook recipe."
    "a delicious dish created by ai." 2 (by decide) (by decide) (by decide)
  have h2 := lower_append_beq_false y " turned into a balanced, easy-to-cook recipe."
    "a delicious dish created by ai" 2 (by decide) (by decide) (by decide)
  simp [descPlaceholders, List.contains, List.elem, h1, h2]

/-! ## Helper lemmas: the finalized record's fields -/

theorem sanitize_eq_some (data : PyVal) (idea : String) (out : List (String × PyVal))
    (h : sanitize_recipe_data data idea = some out) :
    ∃ out0 t0 d0, pyDictOf data = some out0 ∧
      cleanField (dictGetD out0 "title") = some t0 ∧
      cleanField (dictGetD out0 "description") = some d0 ∧
      out = sanitizeCore out0 t0 d0 idea := by
  unfold sanitize_recipe_data at h
  split at h
  · exact Option.noConfusion h
  · rename_i out0 hd
    split at h
    · rename_i t0 d0 hc1 hc2
      exact ⟨out0, t0, d0, hd, hc1, hc2, (Option.some.inj h).symm⟩
    · exact Option.noConfusion h

theorem sanitizeCore_get_title (out0 : List (String × PyVal)) (t0 d0 idea : String) :
    dictGetD (sanitizeCore out0 t0 d0 idea) "title" =
      PyVal.str (if pyStrip t0 = "" ∨ titlePlaceholders.contains (pyLower (pyStrip t0)) then
          (if pyStrip idea ≠ "" then pyTitle (pyStrip idea) else chefTitle)
        else pyStrip t0) := by
  simp only [sanitizeCore, dictGetD]
  rw [dictGet_dictSet_ne _ _ _ _ (by decide), dictGet_dictSet_ne _ _ _ _ (by decide),
    dictGet_dictSet_ne _ _ _ _ (by decide), dictGet_dictSet_ne _ _ _ _ (by decide),
    dictGet_dictSet_ne _ _ _ _ (by decide), dictGet_dictSet_self]
  rfl

theorem sanitizeCore_get_desc (out0 : List (String × PyVal)) (t0 d0 idea : String) :
    dictGetD (sanitizeCore out0 t0 d0 idea) "description" =
      PyVal.str (if pyStrip d0 = "" ∨ descPlaceholders.contains (pyLower (pyStrip d0)) then
          (if pyStrip idea ≠ "" then
            pyCapitalize (pyStrip idea) ++ " turned into a balanced, easy-to-cook recipe."
          else "A tasty, no-fuss recipe.")
        else pyStrip d0) := by
  simp only [sanitizeCore, dictGetD]
  rw [dictGet_dictSet_ne _ _ _ _ (by decide), dictGet_dictSet_ne _ _ _ _ (by decide),
    dictGet_dictSet_ne _ _ _ _ (by decide), dictGet_dictSet_ne _ _ _ _ (by decide),
    dictGet_dictSet_self]
  rfl

theorem sanitizeCore_get_servings (out0 : List (String × PyVal)) (t0 d0 idea : String) :
    dictGetD (sanitizeCore out0 t0 d0 idea) "servings" =
      PyVal.int (as_int (dictGetD out0 "servings") 2) := by
  simp only [sanitizeCore, dictGetD]
  rw [dictGet_dictSet_ne _ _ _ _ (by decide), dictGet_dictSet_ne _ _ _ _ (by decide),
    dictGet_dictSet_ne _ _ _ _ (by decide), dictGet_dictSet_self]
  rfl

theorem sanitizeCore_get_time (out0 : List (String × PyVal)) (t0 d0 idea : String) :
    dictGetD (sanitizeCore out0 t0 d0 idea) "time_minutes" =
      PyVal.int (as_int (dictGetD out0 "time_minutes") 20) := by
  simp only [sanitizeCore, dictGetD]
  rw [dictGet_dictSet_ne _ _ _ _ (by decide), dictGet_dictSet_ne _ _ _ _ (by decide),
    dictGet_dictSet_self]
  rfl

theorem sanitizeCore_get_ingredients (out0 : List (String × PyVal)) (t0 d0 idea : String) :
    dictGetD (sanitizeCore out0 t0 d0 idea) "ingredients" =
      PyVal.list ((if (((coerce_list (dictGetD out0 "ingredients")).filter
            (fun x => pyStrip (pyStr x) ≠ "")).map plainify_ingredient).isEmpty
          then defaultIngredients
          else ((coerce_list (dictGetD out0 "ingredients")).filter
            (fun x => pyStrip (pyStr x) ≠ "")).map plainify_ingredient).map PyVal.str) := by
  simp only [sanitizeCore, dictGetD]
  rw [dictGet_dictSet_ne _ _ _ _ (by decide), dictGet_dictSet_self]
  rfl

theorem sanitizeCore_get_steps (out0 : List (String × PyVal)) (t0 d0 idea : String) :
    dictGetD (sanitizeCore out0 t0 d0 idea) "steps" =
      PyVal.list ((if (((coerce_list (dictGetD out0 "steps")).filter
            (fun x => pyStrip (pyStr x) ≠ "")).map plainify_step).isEmpty
          then defaultSteps
          else ((coerce_list (dictGetD out0 "steps")).filter
            (fun x => pyStrip (pyStr x) ≠ "")).map plainify_step).map PyVal.str) := by
  simp only [sanitizeCore, dictGetD]
  rw [dictGet_dictSet_self]
  rfl

theorem string_ne_empty_iff (s : String) : s ≠ "" ↔ s.data ≠ [] := by
  rw [not_iff_not]
  exact ⟨fun h => by rw [h], fun h => String.ext h⟩

theorem sanitizeCore_invariants (out0 : List (String × PyVal)) (t0 d0 idea : String) :
    (∃ t, dictGetD (sanitizeCore out0 t0 d0 idea) "title" = PyVal.str t ∧
      pstripL t.data ≠ [] ∧
      (titlePlaceholders.contains (pyLower (pyStrip t)) = false ∨
        titlePlaceholders.contains (pyLower (pyStrip idea)) = true)) ∧
    (∃ dsc, dictGetD (sanitizeCore out0 t0 d0 idea) "description" = PyVal.str dsc ∧ dsc ≠ "" ∧
      descPlaceholders.contains (pyLower dsc) = false) ∧
    (∃ n : Int, dictGetD (sanitizeCore out0 t0 d0 idea) "servings" = PyVal.int n) ∧
    (∃ m : Int, dictGetD (sanitizeCore out0 t0 d0 idea) "time_minutes" = PyVal.int m) ∧
    (∃ ls, ls ≠ [] ∧
      dictGetD (sanitizeCore out0 t0 d0 idea) "ingredients" = PyVal.list (ls.map PyVal.str)) ∧
    (∃ ss, ss ≠ [] ∧
      dictGetD (sanitizeCore out0 t0 d0 idea) "steps" = PyVal.list (ss.map PyVal.str)) := by
  refine ⟨⟨_, sanitizeCore_get_title out0 t0 d0 idea, ?_, ?_⟩,
    ⟨_, sanitizeCore_get_desc out0 t0 d0 idea, ?_, ?_⟩,
    ⟨_, sanitizeCore_get_servings out0 t0 d0 idea⟩,
    ⟨_, sanitizeCore_get_time out0 t0 d0 idea⟩,
    ⟨_, ?_, sanitizeCore_get_ingredients out0 t0 d0 idea⟩,
    ⟨_, ?_, sanitizeCore_get_steps out0 t0 d0 idea⟩⟩
  -- title: non-empty after stripping
  · by_cases h1 : pyStrip t0 = "" ∨ titlePlaceholders.contains (pyLower (pyStrip t0))
    · rw [if_pos h1]
      by_cases h2 : pyStrip idea ≠ ""
      · rw [if_pos h2]
        have hys : pstripL (pyStrip idea).data ≠ [] := by
          show pstripL (pstripL idea.data) ≠ []
          rw [pstripL_idem]
          exact (string_ne_empty_iff (pyStrip idea)).mp h2
        obtain ⟨c, hc, hcw⟩ := exists_nonspace_of_pstripL_ne_nil _ hys
        obtain ⟨e, he, hew⟩ := titleGo_exists_nonspace _ false ⟨c, hc, hcw⟩
        exact pstripL_ne_nil_of_mem _ e he hew
      · rw [if_neg h2]
        decide
    · rw [if_neg h1]
      push_neg at h1
      show pstripL (pstripL t0.data) ≠ []
      rw [pstripL_idem]
      exact (string_ne_empty_iff (pyStrip t0)).mp h1.1
  -- title: placeholder only when the idea itself is placeholder-like
  · by_cases h1 : pyStrip t0 = "" ∨ titlePlaceholders.contains (pyLower (pyStrip t0))
    · rw [if_pos h1]
      by_cases h2 : pyStrip idea ≠ ""
      · rw [if_pos h2]
        cases hb : titlePlaceholders.contains (pyLower (pyStrip idea)) with
        | true => exact Or.inr rfl
        | false =>
          left
          rw [pyLower_pyStrip, pyLower_pyTitle, ← pyLower_pyStrip, pyStrip_pyStrip]
          exact hb
      · rw [if_neg h2]
        left
        decide
    · rw [if_neg h1]
      push_neg at h1
      left
      rw [show pyStrip (pyStrip t0) = pyStrip t0 from pyStrip_pyStrip t0]
      exact Bool.of_not_eq_true h1.2
  -- description: non-empty
  · by_cases h1 : pyStrip d0 = "" ∨ descPlaceholders.contains (pyLower (pyStrip d0))
    · rw [if_pos h1]
      by_cases h2 : pyStrip idea ≠ ""
      · rw [if_pos h2]
        rw [string_ne_empty_iff, String.data_append]
        exact List.append_ne_nil_of_right_ne_nil _ (by decide)
      · rw [if_neg h2]
        decide
    · rw [if_neg h1]
      push_neg at h1
      exact h1.1
  -- description: never a placeholder
  · by_cases h1 : pyStrip d0 = "" ∨ descPlaceholders.contains (pyLower (pyStrip d0))
    · rw [if_pos h1]
      by_cases h2 : pyStrip idea ≠ ""
      · rw [if_pos h2]
        exact desc_suffix_not_placeholder _
      · rw [if_neg h2]
        decide
    · rw [if_neg h1]
      push_neg at h1
      exact Bool.of_not_eq_true h1.2
  -- ingredients: non-empty
  · by_cases hi : (((coerce_list (dictGetD out0 "ingredients")).filter
        (fun x => pyStrip (pyStr x) ≠ "")).map plainify_ingredient).isEmpty
    · rw [if_pos hi]
      decide
    · rw [if_neg hi]
      exact fun e => hi (by rw [e]; rfl)
  -- steps: non-empty
  · by_cases hs : (((coerce_list (dictGetD out0 "steps")).filter
        (fun x => pyStrip (pyStr x) ≠ "")).map plainify_step).isEmpty
    · rw [if_pos hs]
      decide
    · rw [if_neg hs]
      exact fun e => hs (by rw [e]; rfl)

/-- Claim C1 (amended): whenever finalization succeeds, the ingredients
and steps of the record are non-empty lists of plain strings (the
entries themselves may be empty, as the counterexample shows). -/
theorem c1_sanitize_lists (data : PyVal) (idea : String) (out : List (String × PyVal))
    (h : sanitize_recipe_data data idea = some out) :
    (∃ ls, ls ≠ [] ∧ dictGetD out "ingredients" = PyVal.list (ls.map PyVal.str)) ∧
    (∃ ss, ss ≠ [] ∧ dictGetD out "steps" = PyVal.list (ss.map PyVal.str)) := by
  obtain ⟨out0, t0, d0, _, _, _, rfl⟩ := sanitize_eq_some data idea out h
  have hinv := sanitizeCore_invariants out0 t0 d0 idea
  exact ⟨hinv.2.2.2.2.1, hinv.2.2.2.2.2⟩

/-- Witness for C1 at a concrete empty draft. -/
theorem c1_sanitize_lists_witness :
    sanitize_recipe_data (PyVal.dict []) "x" = some (sanitizeCore [] "" "" "x") ∧
    ((∃ ls, ls ≠ [] ∧ dictGetD (sanitizeCore [] "" "" "x") "ingredients" =
        PyVal.list (ls.map PyVal.str)) ∧
      (∃ ss, ss ≠ [] ∧ dictGetD (sanitizeCore [] "" "" "x") "steps" =
        PyVal.list (ss.map PyVal.str))) :=
  ⟨rfl, c1_sanitize_lists (PyVal.dict []) "x" (sanitizeCore [] "" "" "x") rfl⟩

/-- Claim C9: the heuristic prose extractor always returns a fully
populated record: fixed servings 2 and time 20, the idea title-cased as
title (or the fixed default), and non-empty ingredient/step lists equal
to the extracted entries or the fixed defaults when none are found. -/
theorem c9_heuristic_populated (text idea : String) :
    dictGetD (heuristic_from_text text idea) "servings" = PyVal.int 2 ∧
    dictGetD (heuristic_from_text text idea) "time_minutes" = PyVal.int 20 ∧
    dictGetD (heuristic_from_text text idea) "title" =
      PyVal.str (if pyStrip idea ≠ "" then pyTitle (pyStrip idea) else chefTitle) ∧
    dictGetD (heuristic_from_text text idea) "ingredients" =
      PyVal.list ((if (ingOf (cleanedOf text)).isEmpty then defaultIngredients
        else ingOf (cleanedOf text)).map PyVal.str) ∧
    dictGetD (heuristic_from_text text idea) "steps" =
      PyVal.list ((if (stepsOf (cleanedOf text)).isEmpty then defaultSteps
        else stepsOf (cleanedOf text)).map PyVal.str) ∧
    (∃ ls, ls ≠ [] ∧ dictGetD (heuristic_from_text text idea) "ingredients" =
      PyVal.list (ls.map PyVal.str)) ∧
    (∃ ss, ss ≠ [] ∧ dictGetD (heuristic_from_text text idea) "steps" =
      PyVal.list (ss.map PyVal.str)) := by
  refine ⟨rfl, rfl, rfl, rfl, rfl, ⟨_, ?_, rfl⟩, ⟨_, ?_, rfl⟩⟩
  · by_cases hi : (ingOf (cleanedOf text)).isEmpty
    · rw [if_pos hi]
      decide
    · rw [if_neg hi]
      exact fun e => hi (by rw [e]; rfl)
  · by_cases hs2 : (stepsOf (cleanedOf text)).isEmpty
    · rw [if_pos hs2]
      decide
    · rw [if_neg hs2]
      exact fun e => hs2 (by rw [e]; rfl)

/-- Claim C10: finalization preserves every key of the draft other than
the six recipe keys, with its original value. -/
theorem c10_frame_preserved (kvs : List (String × PyVal)) (idea : String)
    (out : List (String × PyVal)) (k : String)
    (h : sanitize_recipe_data (PyVal.dict kvs) idea = some out)
    (hk : ¬ k ∈ ["title", "description", "servings", "time_minutes", "ingredients", "steps"]) :
    dictGet out k = dictGet kvs k := by
  obtain ⟨out0, t0, d0, hd, _, _, rfl⟩ := sanitize_eq_some _ _ _ h
  rw [pyDictOf_dict] at hd
  obtain rfl : kvs = out0 := Option.some.inj hd
  simp only [List.mem_cons, List.not_mem_nil, or_false, not_or] at hk
  obtain ⟨n1, n2, n3, n4, n5, n6⟩ := hk
  simp only [sanitizeCore]
  rw [dictGet_dictSet_ne _ _ _ _ (Ne.symm n6), dictGet_dictSet_ne _ _ _ _ (Ne.symm n5),
    dictGet_dictSet_ne _ _ _ _ (Ne.symm n4), dictGet_dictSet_ne _ _ _ _ (Ne.symm n3),
    dictGet_dictSet_ne _ _ _ _ (Ne.symm n2), dictGet_dictSet_ne _ _ _ _ (Ne.symm n1)]

/-- Witness for C10 at a concrete draft with an extra key. -/
theorem c10_frame_preserved_witness :
    sanitize_recipe_data (PyVal.dict [("extra", PyVal.int 7)]) "x" =
      some (sanitizeCore [("extra", PyVal.int 7)] "" "" "x") ∧
    ¬ "extra" ∈ ["title", "description", "servings", "time_minutes", "ingredients", "steps"] ∧
    dictGet (sanitizeCore [("extra", PyVal.int 7)] "" "" "x") "extra" =
      dictGet [("extra", PyVal.int 7)] "extra" :=
  ⟨rfl, by decide, c10_frame_preserved [("extra", PyVal.int 7)] "x" _ "extra" rfl (by decide)⟩

/-- `_unique_title` on a title with non-blank content returns either the
stripped base (first occurrence) or a version-suffixed text ending in a
closing parenthesis; the result is never empty. -/
theorem unique_title_shape (seen : List (String × Nat)) (t : String)
    (ht : pstripL t.data ≠ []) :
    (unique_title seen t).2 ≠ "" ∧
    ((unique_title seen t).2 = pyStrip t ∨ ∃ y, (unique_title seen t).2 = y ++ ")") := by
  have htne : t ≠ "" := by
    rw [string_ne_empty_iff]
    intro e
    rw [e] at ht
    exact ht rfl
  have hbase : pyStrip (if t = "" then chefTitle else t) = pyStrip t := by rw [if_neg htne]
  have hbne : pyStrip t ≠ "" := by
    rw [string_ne_empty_iff]
    exact ht
  simp only [unique_title, hbase]
  by_cases hn : (regGet seen (pyLower (pyStrip t))).getD 0 = 0
  · rw [if_pos hn]
    exact ⟨hbne, Or.inl rfl⟩
  · rw [if_neg hn]
    refine ⟨?_, Or.inr ⟨_, rfl⟩⟩
    rw [string_ne_empty_iff, String.data_append]
    exact List.append_ne_nil_of_right_ne_nil _ (by decide)

/-- Replacing the title of a record that satisfies the non-title
invariants with a new valid title yields the full invariant. -/
theorem title_update_invariants (D : List (String × PyVal)) (idea t2 : String)
    (hdesc : ∃ dsc, dictGetD D "description" = PyVal.str dsc ∧ dsc ≠ "" ∧
      descPlaceholders.contains (pyLower dsc) = false)
    (hserv : ∃ n : Int, dictGetD D "servings" = PyVal.int n)
    (htime : ∃ m : Int, dictGetD D "time_minutes" = PyVal.int m)
    (hing : ∃ ls, ls ≠ [] ∧ dictGetD D "ingredients" = PyVal.list (ls.map PyVal.str))
    (hstep : ∃ ss, ss ≠ [] ∧ dictGetD D "steps" = PyVal.list (ss.map PyVal.str))
    (ht2 : t2 ≠ "")
    (hph : titlePlaceholders.contains (pyLower t2) = false ∨
      titlePlaceholders.contains (pyLower (pyStrip idea)) = true) :
    RecipeInvariant (dictSet D "title" (PyVal.str t2)) idea := by
  have hne : ∀ k : String, k ≠ "title" →
      dictGetD (dictSet D "title" (PyVal.str t2)) k = dictGetD D k := by
    intro k hk
    unfold dictGetD
    rw [dictGet_dictSet_ne _ _ _ _ (fun e => hk e.symm)]
  refine ⟨⟨t2, ?_, ht2, hph⟩, ?_, ?_, ?_, ?_, ?_⟩
  · unfold dictGetD
    rw [dictGet_dictSet_self]
    rfl
  · rw [hne "description" (by decide)]
    exact hdesc
  · rw [hne "servings" (by decide)]
    exact hserv
  · rw [hne "time_minutes" (by decide)]
    exact htime
  · rw [hne "ingredients" (by decide)]
    exact hing
  · rw [hne "steps" (by decide)]
    exact hstep

/-- The final displayed title produced by the registry from a finalizer
title satisfies the (amended) placeholder condition. -/
theorem unique_title_placeholder (seen : List (String × Nat)) (t idea : String)
    (ht : pstripL t.data ≠ [])
    (hph : titlePlaceholders.contains (pyLower (pyStrip t)) = false ∨
      titlePlaceholders.contains (pyLower (pyStrip idea)) = true) :
    titlePlaceholders.contains (pyLower ((unique_title seen t).2)) = false ∨
      titlePlaceholders.contains (pyLower (pyStrip idea)) = true := by
  rcases (unique_title_shape seen t ht).2 with he | ⟨y, he⟩
  · rw [he]
    exact hph
  · rw [he]
    exact Or.inl (title_suffix_not_placeholder y)

/-- A dict draft whose title and description fields are strings
finalizes successfully, to `sanitizeCore` of the cleaned texts. -/
theorem sanitize_dict_str (kvs : List (String × PyVal)) (tS dS idea : String)
    (ht : dictGetD kvs "title" = PyVal.str tS)
    (hd : dictGetD kvs "description" = PyVal.str dS) :
    sanitize_recipe_data (PyVal.dict kvs) idea =
      some (sanitizeCore kvs (clean_text tS) (clean_text dS) idea) := by
  unfold sanitize_recipe_data
  simp only [pyDictOf_dict, ht, hd, cleanField_str]

/-- The exception-handler path of generation always succeeds and yields
a valid record. -/
theorem generate_fallback_valid (idea : String) (seen : List (String × Nat)) :
    ∃ d reg, generate_fallback idea seen = some (d, reg) ∧ RecipeInvariant d idea := by
  unfold generate_fallback
  have hsan := sanitize_dict_str (heuristic_from_text "" idea)
    (if pyStrip idea ≠ "" then pyTitle (pyStrip idea) else chefTitle)
    (if pyStrip idea ≠ "" then
      pyCapitalize (pyStrip idea) ++ " turned into a balanced, easy-to-cook recipe."
    else "A tasty, no-fuss recipe.")
    idea rfl rfl
  simp only [hsan]
  obtain ⟨⟨t, hgetT, htne, htph⟩, hdesc, hserv, htime, hing, hstep⟩ :=
    sanitizeCore_invariants (heuristic_from_text "" idea)
      (clean_text (if pyStrip idea ≠ "" then pyTitle (pyStrip idea) else chefTitle))
      (clean_text (if pyStrip idea ≠ "" then
        pyCapitalize (pyStrip idea) ++ " turned into a balanced, easy-to-cook recipe."
      else "A tasty, no-fuss recipe."))
      idea
  simp only [hgetT]
  refine ⟨_, _, rfl, ?_⟩
  exact title_update_invariants _ idea _ hdesc hserv htime hing hstep
    (unique_title_shape seen t htne).1 (unique_title_placeholder seen t idea htne htph)

/-- Claim C4 (amended): generation is total — for every transport
behavior, idea string and session registry it produces a record
satisfying the (amended) §3 invariant, and no exception reaches the
display layer (the result is never `Option.none`). -/
theorem c4_generate_total_valid (tr : String → Option String) (idea : String)
    (seen : List (String × Nat)) :
    ∃ d reg, generate tr idea seen = some (d, reg) ∧ RecipeInvariant d idea := by
  simp only [generate]
  cases hs : sanitize_recipe_data (call_model tr idea) idea with
  | none => exact generate_fallback_valid idea seen
  | some data =>
    obtain ⟨out0, t0, d0, _, _, _, rfl⟩ := sanitize_eq_some _ _ _ hs
    obtain ⟨⟨t, hgetT, htne, htph⟩, hdesc, hserv, htime, hing, hstep⟩ :=
      sanitizeCore_invariants out0 t0 d0 idea
    have htstr : pyTruthy (PyVal.str t) = true := by
      have : t ≠ "" := by
        rw [string_ne_empty_iff]
        intro e
        rw [e] at htne
        exact htne rfl
      simp [pyTruthy, this]
    have hor : pyOr (dictGetD (sanitizeCore out0 t0 d0 idea) "title") (PyVal.str chefTitle) =
        PyVal.str t := by
      rw [hgetT]
      unfold pyOr
      rw [if_pos htstr]
    simp only [hor]
    refine ⟨_, _, rfl, ?_⟩
    exact title_update_invariants _ idea _ hdesc hserv htime hing hstep
      (unique_title_shape seen t htne).1 (unique_title_placeholder seen t idea htne htph)

/-! ## Helper lemmas: characters produced by the sanitizer stages -/

theorem infixPstripL (l : List Char) : pstripL l <:+: l := by
  unfold pstripL
  have h1 : l.dropWhile isPySpace <:+ l := List.dropWhile_suffix _
  have h4 : ((l.dropWhile isPySpace).reverse.dropWhile isPySpace).reverse <+:
      l.dropWhile isPySpace := by
    apply List.reverse_suffix.mp
    rw [List.reverse_reverse]
    exact List.dropWhile_suffix _
  exact h4.isInfix.trans h1.isInfix

theorem mem_pstripL {l : List Char} {c : Char} (hc : c ∈ pstripL l) : c ∈ l :=
  List.IsInfix.mem hc (infixPstripL l)

theorem mem_removeLabelsGo {c : Char} :
    ∀ (fuel : Nat) (p : Bool) (l : List Char), c ∈ removeLabelsGo fuel p l → c ∈ l := by
  intro fuel
  induction fuel with
  | zero => intro p l hc; exact hc
  | succ n ih =>
    intro p l hc
    cases l with
    | nil => exact hc
    | cons c0 cs =>
      by_cases hp : p
      · rw [show removeLabelsGo (n + 1) p (c0 :: cs) =
            c0 :: removeLabelsGo n (isWordChar c0) cs by simp [removeLabelsGo, hp]] at hc
        rcases List.mem_cons.mp hc with rfl | hc2
        · exact List.mem_cons_self _ _
        · exact List.mem_cons_of_mem _ (ih _ _ hc2)
      · cases hm : labelMatchLen (c0 :: cs) with
        | some k =>
          rw [show removeLabelsGo (n + 1) p (c0 :: cs) =
              removeLabelsGo n false ((c0 :: cs).drop k) by simp [removeLabelsGo, hp, hm]] at hc
          exact List.mem_of_mem_drop (ih _ _ hc)
        | none =>
          rw [show removeLabelsGo (n + 1) p (c0 :: cs) =
              c0 :: removeLabelsGo n (isWordChar c0) cs by simp [removeLabelsGo, hp, hm]] at hc
          rcases List.mem_cons.mp hc with rfl | hc2
          · exact List.mem_cons_self _ _
          · exact List.mem_cons_of_mem _ (ih _ _ hc2)

theorem removeMarker_suffix (l : List Char) : removeMarker l <:+ l := by
  unfold removeMarker
  have h1 : l.dropWhile isPySpace <:+ l := List.dropWhile_suffix _
  cases hr : l.dropWhile isPySpace with
  | nil => exact List.suffix_refl l
  | cons c0 cs =>
    rw [hr] at h1
    have hcs : cs <:+ l := (List.suffix_cons c0 cs).trans h1
    by_cases hd : c0.isDigit
    · simp only [hd, if_true]
      cases hr2 : (c0 :: cs).dropWhile Char.isDigit with
      | nil => exact List.suffix_refl l
      | cons p cs2 =>
        have h2 : (c0 :: cs).dropWhile Char.isDigit <:+ (c0 :: cs) := List.dropWhile_suffix _
        rw [hr2] at h2
        have hcs2 : cs2 <:+ l := ((List.suffix_cons p cs2).trans h2).trans h1
        by_cases hp : p == '.' || p == ')'
        · simp only [hp, if_true]
          exact (List.dropWhile_suffix _).trans hcs2
        · simp only [hp, if_false]
          exact List.suffix_refl l
    · simp only [hd, if_false]
      by_cases hm : c0 == '-' || c0 == '*' || c0 == '•'
      · simp only [hm, if_true]
        exact (List.dropWhile_suffix _).trans hcs
      · simp only [hm, if_false]
        exact List.suffix_refl l

theorem mem_removeMarker {l : List Char} {c : Char} (hc : c ∈ removeMarker l) : c ∈ l :=
  List.IsSuffix.mem hc (removeMarker_suffix l)

theorem mem_collapseWs {c : Char} :
    ∀ (l : List Char), c ∈ collapseWs l → c ∈ l ∨ c = ' ' := by
  intro l
  induction l with
  | nil => intro hc; exact absurd hc (by simp [collapseWs])
  | cons c0 cs ih =>
    intro hc
    by_cases h0 : isPySpace c0
    · cases cs with
      | nil =>
        rw [show collapseWs [c0] = [' '] by simp [collapseWs, h0]] at hc
        right
        simpa using hc
      | cons d ds =>
        by_cases hdw : isPySpace d
        · rw [show collapseWs (c0 :: d :: ds) = collapseWs (d :: ds) by
              simp [collapseWs, h0, hdw]] at hc
          rcases ih hc with h | h
          · exact Or.inl (List.mem_cons_of_mem _ h)
          · exact Or.inr h
        · rw [show collapseWs (c0 :: d :: ds) = ' ' :: collapseWs (d :: ds) by
              simp [collapseWs, h0, hdw]] at hc
          rcases List.mem_cons.mp hc with rfl | hc2
          · exact Or.inr rfl
          · rcases ih hc2 with h | h
            · exact Or.inl (List.mem_cons_of_mem _ h)
            · exact Or.inr h
    · rw [show collapseWs (c0 :: cs) = c0 :: collapseWs cs by simp [collapseWs, h0]] at hc
      rcases List.mem_cons.mp hc with rfl | hc2
      · exact Or.inl (List.mem_cons_self _ _)
      · rcases ih hc2 with h | h
        · exact Or.inl (List.mem_cons_of_mem _ h)
        · exact Or.inr h

theorem mem_comma_mut {c : Char} :
    ∀ (n : Nat) (l : List Char), l.length ≤ n →
      (∀ buf, c ∈ commaSM buf l → c ∈ buf ∨ c ∈ l ∨ c = ',' ∨ c = ' ') ∧
      (c ∈ commaAfter l → c ∈ l ∨ c = ',' ∨ c = ' ') := by
  intro n
  induction n with
  | zero =>
    intro l hl
    have : l = [] := List.length_eq_zero.mp (Nat.le_zero.mp hl)
    subst this
    exact ⟨fun buf hc => Or.inl hc, fun hc => absurd hc (by simp [commaAfter])⟩
  | succ n ih =>
    intro l hl
    cases l with
    | nil => exact ⟨fun buf hc => Or.inl hc, fun hc => absurd hc (by simp [commaAfter])⟩
    | cons c0 cs =>
      have hcs := ih cs (by simp at hl; omega)
      constructor
      · intro buf hc
        by_cases h0 : isPySpace c0
        · rw [show commaSM buf (c0 :: cs) = commaSM (buf ++ [c0]) cs by
              simp [commaSM, h0]] at hc
          rcases (hcs.1 _ hc) with h | h | h | h
          · rcases List.mem_append.mp h with h2 | h2
            · exact Or.inl h2
            · have he : c = c0 := by simpa using h2
              exact Or.inr (Or.inl (he ▸ List.mem_cons_self _ _))
          · exact Or.inr (Or.inl (List.mem_cons_of_mem _ h))
          · exact Or.inr (Or.inr (Or.inl h))
          · exact Or.inr (Or.inr (Or.inr h))
        · by_cases h1 : c0 = ','
          · subst h1
            rw [show commaSM buf (',' :: cs) = ',' :: ' ' :: commaAfter cs by
                simp [commaSM, h0]] at hc
            rcases List.mem_cons.mp hc with rfl | hc2
            · exact Or.inr (Or.inr (Or.inl rfl))
            · rcases List.mem_cons.mp hc2 with rfl | hc3
              · exact Or.inr (Or.inr (Or.inr rfl))
              · rcases hcs.2 hc3 with h | h | h
                · exact Or.inr (Or.inl (List.mem_cons_of_mem _ h))
                · exact Or.inr (Or.inr (Or.inl h))
                · exact Or.inr (Or.inr (Or.inr h))
          · rw [show commaSM buf (c0 :: cs) = buf ++ c0 :: commaSM [] cs by
                simp [commaSM, h0, h1]] at hc
            rcases List.mem_append.mp hc with h2 | h2
            · exact Or.inl h2
            · rcases List.mem_cons.mp h2 with rfl | hc3
              · exact Or.inr (Or.inl (List.mem_cons_self _ _))
              · rcases (hcs.1 [] hc3) with h | h | h | h
                · exact absurd h (by simp)
                · exact Or.inr (Or.inl (List.mem_cons_of_mem _ h))
                · exact Or.inr (Or.inr (Or.inl h))
                · exact Or.inr (Or.inr (Or.inr h))
      · intro hc
        by_cases h0 : isPySpace c0
        · rw [show commaAfter (c0 :: cs) = commaAfter cs by simp [commaAfter, h0]] at hc
          rcases hcs.2 hc with h | h | h
          · exact Or.inl (List.mem_cons_of_mem _ h)
          · exact Or.inr (Or.inl h)
          · exact Or.inr (Or.inr h)
        · by_cases h1 : c0 = ','
          · subst h1
            rw [show commaAfter (',' :: cs) = ',' :: ' ' :: commaAfter cs by
                simp [commaAfter, h0]] at hc
            rcases List.mem_cons.mp hc with rfl | hc2
            · exact Or.inr (Or.inl rfl)
            · rcases List.mem_cons.mp hc2 with rfl | hc3
              · exact Or.inr (Or.inr rfl)
              · rcases hcs.2 hc3 with h | h | h
                · exact Or.inl (List.mem_cons_of_mem _ h)
                · exact Or.inr (Or.inl h)
                · exact Or.inr (Or.inr h)
          · rw [show commaAfter (c0 :: cs) = c0 :: commaSM [] cs by
                simp [commaAfter, h0, h1]] at hc
            rcases List.mem_cons.mp hc with rfl | hc2
            · exact Or.inl (List.mem_cons_self _ _)
            · rcases (hcs.1 [] hc2) with h | h | h | h
              · exact absurd h (by simp)
              · exact Or.inl (List.mem_cons_of_mem _ h)
              · exact Or.inr (Or.inl h)
              · exact Or.inr (Or.inr h)

theorem mem_commaSM {l : List Char} {c : Char} (hc : c ∈ commaSM [] l) :
    c ∈ l ∨ c = ',' ∨ c = ' ' := by
  rcases ((mem_comma_mut l.length l le_rfl).1 [] hc) with h | h | h | h
  · exact absurd h (by simp)
  · exact Or.inl h
  · exact Or.inr (Or.inl h)
  · exact Or.inr (Or.inr h)

/-- Claim C3: the sanitized text never contains a brace, bracket or
double quote: those characters are deleted by the `_JSON_SIGNS`
substitution and no later stage reinserts them (later stages only drop
characters or insert spaces and commas). -/
theorem c3_no_json_signs (s : String) :
    ((clean_text s).data.all (fun c =>
      !(c == '{' || c == '}' || c == '[' || c == ']' || c == '"'))) = true := by
  rw [List.all_eq_true]
  intro c hc
  have hc1 : c ∈ cleanTextL s.data := hc
  unfold cleanTextL at hc1
  have hc2 := mem_pstripL hc1
  rcases mem_commaSM hc2 with h3 | rfl | rfl
  · rcases mem_collapseWs _ h3 with h4 | rfl
    · have h5 := mem_removeMarker h4
      have h6 := mem_removeLabelsGo _ _ _ h5
      have h7 : jsonSignChar c = false := by
        have := List.of_mem_filter h6
        simpa using this
      simp only [jsonSignChar, Bool.or_eq_false_iff] at h7
      obtain ⟨⟨⟨⟨⟨e1, e2⟩, e3⟩, e4⟩, _⟩, e6⟩ := h7
      simp [e1, e2, e3, e4, e6]
    · decide
  · decide
  · decide

/-! ## Helper lemmas: normal form of sanitized text (for idempotence) -/

theorem pair_infix_cons {a b c : Char} {l : List Char} :
    [a, b] <:+: (c :: l) ↔ (a = c ∧ ∃ r, l = b :: r) ∨ [a, b] <:+: l := by
  rw [List.infix_cons_iff]
  constructor
  · rintro (hp | hi)
    · left
      rcases List.cons_prefix_cons.mp hp with ⟨rfl, hp2⟩
      cases l with
      | nil => exact absurd hp2 (by simp)
      | cons d r =>
        rcases List.cons_prefix_cons.mp hp2 with ⟨rfl, _⟩
        exact ⟨rfl, r, rfl⟩
    · exact Or.inr hi
  · rintro (⟨rfl, r, rfl⟩ | hi)
    · exact Or.inl (List.cons_prefix_cons.mpr ⟨rfl, List.cons_prefix_cons.mpr ⟨rfl, List.nil_prefix⟩⟩)
    · exact Or.inr hi

theorem triple_infix_cons {a b c d : Char} {l : List Char} :
    [a, b, c] <:+: (d :: l) ↔ (a = d ∧ [b, c] <+: l) ∨ [a, b, c] <:+: l := by
  rw [List.infix_cons_iff]
  constructor
  · rintro (hp | hi)
    · rcases List.cons_prefix_cons.mp hp with ⟨rfl, hp2⟩
      exact Or.inl ⟨rfl, hp2⟩
    · exact Or.inr hi
  · rintro (⟨rfl, hp⟩ | hi)
    · exact Or.inl (List.cons_prefix_cons.mpr ⟨rfl, hp⟩)
    · exact Or.inr hi

theorem not_infix_of_short {a b : Char} {l : List Char} (h : l.length ≤ 1) :
    ¬ [a, b] <:+: l := by
  intro hc
  have := hc.sublist.length_le
  simp at this
  omega

theorem pstripL_cons_space (t : List Char) : pstripL (' ' :: t) = pstripL t := by
  unfold pstripL
  rw [List.dropWhile_cons]
  simp [isPySpace]

theorem pstripL_length_le (l : List Char) : (pstripL l).length ≤ l.length :=
  (infixPstripL l).sublist.length_le

theorem pstripL_append_space (l : List Char) : pstripL (l ++ [' ']) = pstripL l := by
  unfold pstripL
  cases hdl : l.dropWhile isPySpace with
  | nil =>
    have hall : ∀ c ∈ l, isPySpace c = true := List.dropWhile_eq_nil_iff.mp hdl
    have h2 : (l ++ [' ']).dropWhile isPySpace = [] := by
      apply List.dropWhile_eq_nil_iff.mpr
      intro c hc
      rcases List.mem_append.mp hc with h | h
      · exact hall c h
      · simp at h
        subst h
        rfl
    rw [h2]
  | cons c r =>
    have h2 : (l ++ [' ']).dropWhile isPySpace = (c :: r) ++ [' '] := by
      rw [List.dropWhile_append, hdl]
      simp
    rw [h2, show (c :: r) ++ [' '] = c :: (r ++ [' ']) from rfl,
      show c :: (r ++ [' ']) = (c :: r) ++ [' '] from rfl, List.reverse_append]
    show ((' ' :: (c :: r).reverse).dropWhile isPySpace).reverse = _
    rw [List.dropWhile_cons]
    simp [isPySpace]

theorem collapseWs_cons_nonspace (d : Char) (ds : List Char) (hd : isPySpace d = false) :
    collapseWs (d :: ds) = d :: collapseWs ds := by
  simp [collapseWs, hd]

theorem collapseWs_space : ∀ (l : List Char) (c : Char),
    c ∈ collapseWs l → isPySpace c = true → c = ' ' := by
  intro l
  induction l with
  | nil =>
    intro c hc _
    exact absurd hc (by simp [collapseWs])
  | cons c0 cs ih =>
    intro c hc hw
    cases h0 : isPySpace c0 with
    | true =>
      cases cs with
      | nil =>
        rw [show collapseWs [c0] = [' '] by simp [collapseWs, h0]] at hc
        simpa using hc
      | cons d ds =>
        cases hdw : isPySpace d with
        | true =>
          rw [show collapseWs (c0 :: d :: ds) = collapseWs (d :: ds) by
              simp [collapseWs, h0, hdw]] at hc
          exact ih c hc hw
        | false =>
          rw [show collapseWs (c0 :: d :: ds) = ' ' :: collapseWs (d :: ds) by
              simp [collapseWs, h0, hdw]] at hc
          rcases List.mem_cons.mp hc with rfl | hc2
          · rfl
          · exact ih c hc2 hw
    | false =>
      rw [collapseWs_cons_nonspace c0 cs h0] at hc
      rcases List.mem_cons.mp hc with rfl | hc2
      · exact absurd (h0.symm.trans hw) Bool.false_ne_true
      · exact ih c hc2 hw

theorem collapseWs_noDbl : ∀ (l : List Char), ¬ [' ', ' '] <:+: collapseWs l := by
  intro l
  induction l with
  | nil => exact not_infix_of_short (by simp [collapseWs])
  | cons c0 cs ih =>
    cases h0 : isPySpace c0 with
    | true =>
      cases cs with
      | nil =>
        rw [show collapseWs [c0] = [' '] by simp [collapseWs, h0]]
        exact not_infix_of_short (by simp)
      | cons d ds =>
        cases hdw : isPySpace d with
        | true =>
          rw [show collapseWs (c0 :: d :: ds) = collapseWs (d :: ds) by
              simp [collapseWs, h0, hdw]]
          exact ih
        | false =>
          rw [show collapseWs (c0 :: d :: ds) = ' ' :: collapseWs (d :: ds) by
              simp [collapseWs, h0, hdw]]
          intro hcon
          rcases pair_infix_cons.mp hcon with ⟨_, r, hr⟩ | h2
          · rw [collapseWs_cons_nonspace d ds hdw] at hr
            injection hr with h3 _
            rw [h3] at hdw
            exact absurd hdw (by decide)
          · exact ih h2
    | false =>
      rw [collapseWs_cons_nonspace c0 cs h0]
      intro hcon
      rcases pair_infix_cons.mp hcon with ⟨he, _⟩ | h2
      · rw [← he] at h0
        exact absurd h0 (by decide)
      · exact ih h2

theorem collapseWs_eq_self : ∀ (z : List Char),
    (∀ c ∈ z, isPySpace c = true → c = ' ') → (¬ [' ', ' '] <:+: z) →
    collapseWs z = z := by
  intro z
  induction z with
  | nil =>
    intro _ _
    rfl
  | cons c0 cs ih =>
    intro honly hnd
    cases h0 : isPySpace c0 with
    | true =>
      have hc0 : c0 = ' ' := honly c0 (List.mem_cons_self _ _) h0
      subst hc0
      cases cs with
      | nil => simp [collapseWs]
      | cons d ds =>
        have hdns : isPySpace d = false := by
          cases hdw : isPySpace d with
          | false => rfl
          | true =>
            have hd : d = ' ' := honly d (List.mem_cons_of_mem _ (List.mem_cons_self _ _)) hdw
            subst hd
            exact absurd (List.infix_cons_iff.mpr (Or.inl
              (List.cons_prefix_cons.mpr ⟨rfl, List.cons_prefix_cons.mpr
                ⟨rfl, List.nil_prefix⟩⟩))) hnd
        rw [show collapseWs (' ' :: d :: ds) = ' ' :: collapseWs (d :: ds) by
            simp [collapseWs, hdns]]
        rw [ih (fun c hc hw => honly c (List.mem_cons_of_mem _ hc) hw)
          (fun hcon => hnd (hcon.trans (List.infix_cons_iff.mpr (Or.inr (List.infix_refl _)))))]
    | false =>
      rw [collapseWs_cons_nonspace c0 cs h0]
      rw [ih (fun c hc hw => honly c (List.mem_cons_of_mem _ hc) hw)
        (fun hcon => hnd (hcon.trans (List.infix_cons_iff.mpr (Or.inr (List.infix_refl _)))))]

theorem not_triple_infix_of_short {a b e : Char} {l : List Char} (h : l.length ≤ 2) :
    ¬ [a, b, e] <:+: l := by
  intro hc2
  have := hc2.sublist.length_le
  simp at this
  omega

theorem headfact_no_sc {S : List Char}
    (h2 : ∀ r, S = ' ' :: r →
      r = [] ∨ ∃ d r2, r = d :: r2 ∧ isPySpace d = false ∧ ¬ d = ',') :
    ¬ [' ', ','] <+: S := by
  rintro ⟨t, ht⟩
  rcases h2 (',' :: t) (by rw [← ht]; rfl) with h | ⟨d, r2, hdr, _, hdc⟩
  · exact List.noConfusion h
  · injection hdr with h3 _
    exact hdc h3.symm

theorem comma_out_nf {A : List Char}
    (hA1 : ¬ [' ', ' '] <:+: A) (hA2 : ∀ r, ¬ A = ' ' :: r)
    (hA3 : ∀ x, [',', x] <:+: A → x = ' ')
    (hA4 : ∀ b, [b, ' ', ','] <:+: A → b = ',') :
    (¬ [' ', ' '] <:+: (',' :: ' ' :: A))
    ∧ (∀ x, [',', x] <:+: (',' :: ' ' :: A) → x = ' ')
    ∧ (∀ b, [b, ' ', ','] <:+: (',' :: ' ' :: A) → b = ',') := by
  refine ⟨?_, ?_, ?_⟩
  · intro hcon
    rcases pair_infix_cons.mp hcon with ⟨he, _⟩ | h2
    · exact absurd he (by decide)
    · rcases pair_infix_cons.mp h2 with ⟨_, r, hr⟩ | h3
      · exact hA2 r hr
      · exact hA1 h3
  · intro x hx
    rcases pair_infix_cons.mp hx with ⟨_, r, hr⟩ | h2
    · injection hr with h3 _
      exact h3.symm
    · rcases pair_infix_cons.mp h2 with ⟨he, _⟩ | h3
      · exact absurd he (by decide)
      · exact hA3 x h3
  · intro b hb
    rcases triple_infix_cons.mp hb with ⟨he, _⟩ | h2
    · exact he
    · rcases triple_infix_cons.mp h2 with ⟨_, hp⟩ | h3
      · rcases hp with ⟨t, ht⟩
        exact absurd (by rw [← ht]; rfl : A = ' ' :: (',' :: t)) (hA2 (',' :: t))
      · exact hA4 b h3

theorem plain_out_nf {c : Char} {S : List Char}
    (hc0 : isPySpace c = false) (hc1 : ¬ c = ',')
    (hS1 : ¬ [' ', ' '] <:+: S)
    (hS2 : ∀ r, S = ' ' :: r →
        r = [] ∨ ∃ d r2, r = d :: r2 ∧ isPySpace d = false ∧ ¬ d = ',')
    (hS3 : ∀ x, [',', x] <:+: S → x = ' ')
    (hS4 : ∀ b, [b, ' ', ','] <:+: S → b = ',') :
    (¬ [' ', ' '] <:+: (c :: S))
    ∧ (∀ x, [',', x] <:+: (c :: S) → x = ' ')
    ∧ (∀ b, [b, ' ', ','] <:+: (c :: S) → b = ',') := by
  refine ⟨?_, ?_, ?_⟩
  · intro hcon
    rcases pair_infix_cons.mp hcon with ⟨he, _⟩ | h2
    · rw [← he] at hc0
      exact absurd hc0 (by decide)
    · exact hS1 h2
  · intro x hx
    rcases pair_infix_cons.mp hx with ⟨he, _⟩ | h2
    · exact absurd he.symm hc1
    · exact hS3 x h2
  · intro b hb
    rcases triple_infix_cons.mp hb with ⟨_, hp⟩ | h2
    · exact absurd hp (headfact_no_sc hS2)
    · exact hS4 b h2

theorem comma_nf_nil :
    ( (¬ [' ', ' '] <:+: commaSM [] ([] : List Char))
    ∧ (∀ r, commaSM [] ([] : List Char) = ' ' :: r →
        (∃ r2, ([] : List Char) = ' ' :: r2) ∧
        (r = [] ∨ ∃ d r2, r = d :: r2 ∧ isPySpace d = false ∧ ¬ d = ','))
    ∧ (∀ x, [',', x] <:+: commaSM [] ([] : List Char) → x = ' ')
    ∧ (∀ b, [b, ' ', ','] <:+: commaSM [] ([] : List Char) → b = ',') )
  ∧ ( (¬ [' ', ' '] <:+: commaAfter ([] : List Char))
    ∧ (∀ r, ¬ commaAfter ([] : List Char) = ' ' :: r)
    ∧ (∀ x, [',', x] <:+: commaAfter ([] : List Char) → x = ' ')
    ∧ (∀ b, [b, ' ', ','] <:+: commaAfter ([] : List Char) → b = ',') ) := by
  refine ⟨⟨not_infix_of_short (by decide), ?_, ?_, ?_⟩,
    not_infix_of_short (by decide), ?_, ?_, ?_⟩
  · intro r hr
    exact List.noConfusion hr
  · intro x hx
    exact absurd hx (not_infix_of_short (by decide))
  · intro b hb
    exact absurd hb (not_triple_infix_of_short (by decide))
  · intro r hr
    exact List.noConfusion hr
  · intro x hx
    exact absurd hx (not_infix_of_short (by decide))
  · intro b hb
    exact absurd hb (not_triple_infix_of_short (by decide))

theorem comma_nf : ∀ (n : Nat) (z : List Char), z.length ≤ n →
    (∀ c ∈ z, isPySpace c = true → c = ' ') → (¬ [' ', ' '] <:+: z) →
    ( (¬ [' ', ' '] <:+: commaSM [] z)
    ∧ (∀ r, commaSM [] z = ' ' :: r →
        (∃ r2, z = ' ' :: r2) ∧
        (r = [] ∨ ∃ d r2, r = d :: r2 ∧ isPySpace d = false ∧ ¬ d = ','))
    ∧ (∀ x, [',', x] <:+: commaSM [] z → x = ' ')
    ∧ (∀ b, [b, ' ', ','] <:+: commaSM [] z → b = ',') )
  ∧ ( (¬ [' ', ' '] <:+: commaAfter z)
    ∧ (∀ r, ¬ commaAfter z = ' ' :: r)
    ∧ (∀ x, [',', x] <:+: commaAfter z → x = ' ')
    ∧ (∀ b, [b, ' ', ','] <:+: commaAfter z → b = ',') ) := by
  intro n
  induction n with
  | zero =>
    intro z hz _ _
    have hznil : z = [] := List.length_eq_zero.mp (Nat.le_zero.mp hz)
    subst hznil
    exact comma_nf_nil
  | succ n ih =>
    intro z hz honly hnd
    cases z with
    | nil => exact comma_nf_nil
    | cons c0 cs =>
      have hlcs : cs.length ≤ n := by simp at hz; omega
      have honlycs : ∀ c ∈ cs, isPySpace c = true → c = ' ' :=
        fun c hc hw => honly c (List.mem_cons_of_mem _ hc) hw
      have hndcs : ¬ [' ', ' '] <:+: cs :=
        fun hcon => hnd (List.infix_cons_iff.mpr (Or.inr hcon))
      cases h0 : isPySpace c0 with
      | true =>
        have hc0 : c0 = ' ' := honly c0 (List.mem_cons_self _ _) h0
        subst hc0
        refine ⟨?_, by
          rw [show commaAfter (' ' :: cs) = commaAfter cs from rfl]
          exact (ih cs hlcs honlycs hndcs).2⟩
        cases cs with
        | nil =>
          rw [show commaSM [] [' '] = [' '] from rfl]
          refine ⟨not_infix_of_short (by decide), ?_, ?_, ?_⟩
          · intro r hr
            injection hr with _ h6
            exact ⟨⟨[], rfl⟩, Or.inl h6.symm⟩
          · intro x hx
            exact absurd hx (not_infix_of_short (by decide))
          · intro b hb
            exact absurd hb (not_triple_infix_of_short (by decide))
        | cons d ds =>
          have hd : isPySpace d = false := by
            cases hdw : isPySpace d with
            | false => rfl
            | true =>
              have hde : d = ' ' :=
                honly d (List.mem_cons_of_mem _ (List.mem_cons_self _ _)) hdw
              subst hde
              exact absurd (List.infix_cons_iff.mpr (Or.inl
                (List.cons_prefix_cons.mpr ⟨rfl, List.cons_prefix_cons.mpr
                  ⟨rfl, List.nil_prefix⟩⟩))) hnd
          have hlds : ds.length ≤ n := by simp at hz; omega
          have honlyds : ∀ c ∈ ds, isPySpace c = true → c = ' ' :=
            fun c hc hw => honlycs c (List.mem_cons_of_mem _ hc) hw
          have hndds : ¬ [' ', ' '] <:+: ds :=
            fun hcon => hndcs (List.infix_cons_iff.mpr (Or.inr hcon))
          by_cases hdc : d = ','
          · subst hdc
            have eS2 : commaSM [] (' ' :: ',' :: ds) = ',' :: ' ' :: commaAfter ds := rfl
            obtain ⟨hA1, hA2, hA3, hA4⟩ := (ih ds hlds honlyds hndds).2
            obtain ⟨g1, g3, g4⟩ := comma_out_nf hA1 hA2 hA3 hA4
            rw [eS2]
            refine ⟨g1, ?_, g3, g4⟩
            intro r hr
            injection hr with h5 _
            exact absurd h5 (by decide)
          · have eS2 : commaSM [] (' ' :: d :: ds) = ' ' :: d :: commaSM [] ds := by
              simp [commaSM, hd, hdc]
            obtain ⟨hS1, hS2, hS3, hS4⟩ := (ih ds hlds honlyds hndds).1
            have hS2w : ∀ r, commaSM [] ds = ' ' :: r →
                r = [] ∨ ∃ e r2, r = e :: r2 ∧ isPySpace e = false ∧ ¬ e = ',' :=
              fun r hr => (hS2 r hr).2
            obtain ⟨p1, p3, p4⟩ := plain_out_nf hd hdc hS1 hS2w hS3 hS4
            rw [eS2]
            refine ⟨?_, ?_, ?_, ?_⟩
            · intro hcon
              rcases pair_infix_cons.mp hcon with ⟨_, r, hr⟩ | h2
              · injection hr with h5 _
                rw [h5] at hd
                exact absurd hd (by decide)
              · exact p1 h2
            · intro r hr
              injection hr with _ h5
              exact ⟨⟨d :: ds, rfl⟩, Or.inr ⟨d, commaSM [] ds, h5.symm, hd, hdc⟩⟩
            · intro x hx
              rcases pair_infix_cons.mp hx with ⟨he, _⟩ | h2
              · exact absurd he (by decide)
              · exact p3 x h2
            · intro b hb
              rcases triple_infix_cons.mp hb with ⟨_, hp⟩ | h2
              · rcases List.cons_prefix_cons.mp hp with ⟨he, _⟩
                rw [← he] at hd
                exact absurd hd (by decide)
              · exact p4 b h2
      | false =>
        by_cases hc1 : c0 = ','
        · subst hc1
          obtain ⟨hA1, hA2, hA3, hA4⟩ := (ih cs hlcs honlycs hndcs).2
          obtain ⟨g1, g3, g4⟩ := comma_out_nf hA1 hA2 hA3 hA4
          constructor
          · rw [show commaSM [] (',' :: cs) = ',' :: ' ' :: commaAfter cs from rfl]
            refine ⟨g1, ?_, g3, g4⟩
            intro r hr
            injection hr with h5 _
            exact absurd h5 (by decide)
          · rw [show commaAfter (',' :: cs) = ',' :: ' ' :: commaAfter cs from rfl]
            refine ⟨g1, ?_, g3, g4⟩
            intro r hr
            injection hr with h5 _
            exact absurd h5 (by decide)
        · have eS : commaSM [] (c0 :: cs) = c0 :: commaSM [] cs := by
            simp [commaSM, h0, hc1]
          have eA : commaAfter (c0 :: cs) = c0 :: commaSM [] cs := by
            simp [commaAfter, h0, hc1]
          obtain ⟨hS1, hS2, hS3, hS4⟩ := (ih cs hlcs honlycs hndcs).1
          have hS2w : ∀ r, commaSM [] cs = ' ' :: r →
              r = [] ∨ ∃ e r2, r = e :: r2 ∧ isPySpace e = false ∧ ¬ e = ',' :=
            fun r hr => (hS2 r hr).2
          obtain ⟨p1, p3, p4⟩ := plain_out_nf h0 hc1 hS1 hS2w hS3 hS4
          constructor
          · rw [eS]
            refine ⟨p1, ?_, p3, p4⟩
            intro r hr
            injection hr with h5 _
            rw [h5] at h0
            exact absurd h0 (by decide)
          · rw [eA]
            refine ⟨p1, ?_, p3, p4⟩
            intro r hr
            injection hr with h5 _
            rw [h5] at h0
            exact absurd h0 (by decide)

theorem commaAfter_eq_commaSM (z : List Char)
    (h : ∀ c cs, z = c :: cs → isPySpace c = false) :
    commaAfter z = commaSM [] z := by
  cases z with
  | nil => rfl
  | cons c cs =>
    have hc := h c cs rfl
    by_cases hc1 : c = ','
    · subst hc1
      rfl
    · simp [commaAfter, commaSM, hc, hc1]

theorem commaSM_eq_self : ∀ (n : Nat) (z : List Char), z.length ≤ n →
    (∀ c ∈ z, isPySpace c = true → c = ' ') →
    (¬ [' ', ' '] <:+: z) →
    (∀ x, [',', x] <:+: z → x = ' ') →
    (∀ b, [b, ' ', ','] <:+: z → b = ',') →
    (¬ [' ', ','] <+: z) →
    commaSM [] z = z ∨ commaSM [] z = z ++ [' '] := by
  intro n
  induction n with
  | zero =>
    intro z hz _ _ _ _ _
    have hznil : z = [] := List.length_eq_zero.mp (Nat.le_zero.mp hz)
    subst hznil
    exact Or.inl rfl
  | succ n ih =>
    intro z hz honly hnd hcr htr hpre
    cases z with
    | nil => exact Or.inl rfl
    | cons c0 cs =>
      have hlcs : cs.length ≤ n := by simp at hz; omega
      have honlycs : ∀ c ∈ cs, isPySpace c = true → c = ' ' :=
        fun c hc hw => honly c (List.mem_cons_of_mem _ hc) hw
      have hndcs : ¬ [' ', ' '] <:+: cs :=
        fun hcon => hnd (List.infix_cons_iff.mpr (Or.inr hcon))
      have hcrcs : ∀ x, [',', x] <:+: cs → x = ' ' :=
        fun x hx => hcr x (List.infix_cons_iff.mpr (Or.inr hx))
      have htrcs : ∀ b, [b, ' ', ','] <:+: cs → b = ',' :=
        fun b hb => htr b (List.infix_cons_iff.mpr (Or.inr hb))
      cases h0 : isPySpace c0 with
      | true =>
        have hc0 : c0 = ' ' := honly c0 (List.mem_cons_self _ _) h0
        subst hc0
        cases cs with
        | nil => exact Or.inl rfl
        | cons d ds =>
          have hd : isPySpace d = false := by
            cases hdw : isPySpace d with
            | false => rfl
            | true =>
              have hde : d = ' ' :=
                honly d (List.mem_cons_of_mem _ (List.mem_cons_self _ _)) hdw
              subst hde
              exact absurd (List.infix_cons_iff.mpr (Or.inl
                (List.cons_prefix_cons.mpr ⟨rfl, List.cons_prefix_cons.mpr
                  ⟨rfl, List.nil_prefix⟩⟩))) hnd
          have hdc : ¬ d = ',' := by
            intro hde
            subst hde
            exact hpre (List.cons_prefix_cons.mpr ⟨rfl,
              List.cons_prefix_cons.mpr ⟨rfl, List.nil_prefix⟩⟩)
          have eS2 : commaSM [] (' ' :: d :: ds) = ' ' :: d :: commaSM [] ds := by
            simp [commaSM, hd, hdc]
          have hlds : ds.length ≤ n := by simp at hz; omega
          have honlyds : ∀ c ∈ ds, isPySpace c = true → c = ' ' :=
            fun c hc hw => honlycs c (List.mem_cons_of_mem _ hc) hw
          have hndds : ¬ [' ', ' '] <:+: ds :=
            fun hcon => hndcs (List.infix_cons_iff.mpr (Or.inr hcon))
          have hcrds : ∀ x, [',', x] <:+: ds → x = ' ' :=
            fun x hx => hcrcs x (List.infix_cons_iff.mpr (Or.inr hx))
          have htrds : ∀ b, [b, ' ', ','] <:+: ds → b = ',' :=
            fun b hb => htrcs b (List.infix_cons_iff.mpr (Or.inr hb))
          have hpreds : ¬ [' ', ','] <+: ds := by
            intro hp
            have h3 : [d, ' ', ','] <:+: (' ' :: d :: ds) :=
              List.infix_cons_iff.mpr (Or.inr (List.infix_cons_iff.mpr
                (Or.inl (List.cons_prefix_cons.mpr ⟨rfl, hp⟩))))
            exact hdc (htr d h3)
          rcases ih ds hlds honlyds hndds hcrds htrds hpreds with he | he
          · exact Or.inl (by rw [eS2, he])
          · exact Or.inr (by rw [eS2, he]; rfl)
      | false =>
        by_cases hc1 : c0 = ','
        · subst hc1
          cases cs with
          | nil => exact Or.inr rfl
          | cons d ds =>
            have hdsp : d = ' ' := by
              apply hcr d
              exact List.infix_cons_iff.mpr (Or.inl (List.cons_prefix_cons.mpr
                ⟨rfl, List.cons_prefix_cons.mpr ⟨rfl, List.nil_prefix⟩⟩))
            subst hdsp
            have hd2 : ∀ c cs2, ds = c :: cs2 → isPySpace c = false := by
              intro c cs2 hds
              subst hds
              cases hw : isPySpace c with
              | false => rfl
              | true =>
                have hce : c = ' ' := honly c (by simp) hw
                subst hce
                exact absurd (List.infix_cons_iff.mpr (Or.inr
                  (List.infix_cons_iff.mpr (Or.inl (List.cons_prefix_cons.mpr
                    ⟨rfl, List.cons_prefix_cons.mpr ⟨rfl, List.nil_prefix⟩⟩))))) hnd
            have eS : commaSM [] (',' :: ' ' :: ds) = ',' :: ' ' :: commaSM [] ds := by
              show ',' :: ' ' :: commaAfter (' ' :: ds) = _
              rw [show commaAfter (' ' :: ds) = commaAfter ds from rfl,
                commaAfter_eq_commaSM ds hd2]
            have hlds : ds.length ≤ n := by simp at hz; omega
            have honlyds : ∀ c ∈ ds, isPySpace c = true → c = ' ' :=
              fun c hc hw => honlycs c (List.mem_cons_of_mem _ hc) hw
            have hndds : ¬ [' ', ' '] <:+: ds :=
              fun hcon => hndcs (List.infix_cons_iff.mpr (Or.inr hcon))
            have hcrds : ∀ x, [',', x] <:+: ds → x = ' ' :=
              fun x hx => hcrcs x (List.infix_cons_iff.mpr (Or.inr hx))
            have htrds : ∀ b, [b, ' ', ','] <:+: ds → b = ',' :=
              fun b hb => htrcs b (List.infix_cons_iff.mpr (Or.inr hb))
            have hpreds : ¬ [' ', ','] <+: ds := by
              rintro ⟨t, ht⟩
              have h3 := hd2 ' ' (',' :: t) (by rw [← ht]; rfl)
              exact absurd h3 (by decide)
            rcases ih ds hlds honlyds hndds hcrds htrds hpreds with he | he
            · exact Or.inl (by rw [eS, he])
            · exact Or.inr (by rw [eS, he]; rfl)
        · have eS : commaSM [] (c0 :: cs) = c0 :: commaSM [] cs := by
            simp [commaSM, h0, hc1]
          have hprecs : ¬ [' ', ','] <+: cs := by
            intro hp
            have h3 : [c0, ' ', ','] <:+: (c0 :: cs) :=
              List.infix_cons_iff.mpr (Or.inl (List.cons_prefix_cons.mpr ⟨rfl, hp⟩))
            exact hc1 (htr c0 h3)
          rcases ih cs hlcs honlycs hndcs hcrcs htrcs hprecs with he | he
          · exact Or.inl (by rw [eS, he])
          · exact Or.inr (by rw [eS, he]; rfl)

theorem cleanTextL_fix (l : List Char) : pstripL (cleanTextL l) = cleanTextL l := by
  unfold cleanTextL
  exact pstripL_idem _

theorem cleanTextL_only_space (l : List Char) :
    ∀ c ∈ cleanTextL l, isPySpace c = true → c = ' ' := by
  intro c hc hw
  unfold cleanTextL at hc
  rcases mem_commaSM (mem_pstripL hc) with h | rfl | rfl
  · exact collapseWs_space _ c h hw
  · exact absurd hw (by decide)
  · rfl

theorem cleanTextL_noDbl (l : List Char) : ¬ [' ', ' '] <:+: cleanTextL l := by
  intro hcon
  unfold cleanTextL at hcon
  have h1 := hcon.trans (infixPstripL _)
  exact (comma_nf _ _ le_rfl
    (fun c hc hw => collapseWs_space _ c hc hw) (collapseWs_noDbl _)).1.1 h1

theorem cleanTextL_commaRule (l : List Char) :
    ∀ x, [',', x] <:+: cleanTextL l → x = ' ' := by
  intro x hx
  unfold cleanTextL at hx
  exact (comma_nf _ _ le_rfl
    (fun c hc hw => collapseWs_space _ c hc hw) (collapseWs_noDbl _)).1.2.2.1 x
    (hx.trans (infixPstripL _))

theorem cleanTextL_tripleRule (l : List Char) :
    ∀ b, [b, ' ', ','] <:+: cleanTextL l → b = ',' := by
  intro b hb
  unfold cleanTextL at hb
  exact (comma_nf _ _ le_rfl
    (fun c hc hw => collapseWs_space _ c hc hw) (collapseWs_noDbl _)).1.2.2.2 b
    (hb.trans (infixPstripL _))

theorem cleanTextL_no_sc_prefix (l : List Char) : ¬ [' ', ','] <+: cleanTextL l := by
  rintro ⟨t, ht⟩
  have hfix := cleanTextL_fix l
  rw [← ht] at hfix
  rw [show ([' ', ','] ++ t) = ' ' :: (',' :: t) from rfl, pstripL_cons_space] at hfix
  have hlen := pstripL_length_le (',' :: t)
  rw [hfix] at hlen
  simp at hlen

theorem cleanTextL_no_signs (l : List Char) :
    ∀ c ∈ cleanTextL l, jsonSignChar c = false := by
  intro c hc
  unfold cleanTextL at hc
  rcases mem_commaSM (mem_pstripL hc) with h3 | rfl | rfl
  · rcases mem_collapseWs _ h3 with h4 | rfl
    · have h5 := mem_removeMarker h4
      have h6 := mem_removeLabelsGo _ _ _ h5
      have h7 := List.of_mem_filter h6
      simpa using h7
    · decide
  · decide
  · decide

theorem clean_text_fixed (t : String)
    (honly : ∀ c ∈ t.data, isPySpace c = true → c = ' ')
    (hnd : ¬ [' ', ' '] <:+: t.data)
    (hcr : ∀ x, [',', x] <:+: t.data → x = ' ')
    (htr : ∀ b, [b, ' ', ','] <:+: t.data → b = ',')
    (hpre : ¬ [' ', ','] <+: t.data)
    (hstrip : pstripL t.data = t.data)
    (hsigns : removeSigns t.data = t.data)
    (hL : removeLabels t.data = t.data)
    (hM : removeMarker t.data = t.data) :
    clean_text t = t := by
  apply String.ext
  have h0 : (clean_text t).data = cleanTextL t.data := rfl
  rw [h0]
  rw [show cleanTextL t.data = pstripL (commaSM [] (collapseWs (removeMarker (removeLabels
      (removeSigns (pstripL t.data)))))) from rfl]
  rw [hstrip, hsigns, hL, hM, collapseWs_eq_self _ honly hnd]
  rcases commaSM_eq_self t.data.length t.data le_rfl honly hnd hcr htr hpre with he | he
  · rw [he]
    exact hstrip
  · rw [he, pstripL_append_space]
    exact hstrip

/-- Claim C2 (amended): the sanitizer is idempotent on every input whose
sanitized form is a fixed point of both the label-removal stage and the
leading-marker-removal stage.  The whitespace collapse, comma
normalization, sign removal and strip stages are always idempotent on the
sanitized output, whose normal form (single spaces, commas followed by
exactly one space and preceded by none, stripped ends) is established
here; only the two anchored/label substitutions can make a second pass
differ. -/
theorem c2_idempotent_when_stable (s : String)
    (hL : removeLabels (clean_text s).data = (clean_text s).data)
    (hM : removeMarker (clean_text s).data = (clean_text s).data) :
    clean_text (clean_text s) = clean_text s := by
  have hdata : (clean_text s).data = cleanTextL s.data := rfl
  refine clean_text_fixed (clean_text s) ?_ ?_ ?_ ?_ ?_ ?_ ?_ hL hM
  · rw [hdata]
    exact cleanTextL_only_space s.data
  · rw [hdata]
    exact cleanTextL_noDbl s.data
  · rw [hdata]
    exact cleanTextL_commaRule s.data
  · rw [hdata]
    exact cleanTextL_tripleRule s.data
  · rw [hdata]
    exact cleanTextL_no_sc_prefix s.data
  · rw [hdata]
    exact cleanTextL_fix s.data
  · rw [hdata]
    unfold removeSigns
    apply List.filter_eq_self.mpr
    intro c hc
    have h1 := cleanTextL_no_signs s.data c hc
    simp [h1]

theorem c2_idempotent_when_stable_witness :
    (removeLabels (clean_text "a, b").data = (clean_text "a, b").data
      ∧ removeMarker (clean_text "a, b").data = (clean_text "a, b").data)
    ∧ clean_text (clean_text "a, b") = clean_text "a, b" :=
  ⟨⟨by decide, by decide⟩,
    c2_idempotent_when_stable "a, b" (by decide) (by decide)⟩
